import Mathlib

/-!
# Verification of `uncrypt.c` (android_system_core, src/uncrypt/uncrypt.c)

Shallow embedding of the block-map producer: the range coalescer
(`add_block_to_ranges`), the raw-device writer (`write_at_offset`), and the
bounded read/resolve/write pipeline of `produce_block_map`, together with
theorems settling the specification claims.

Modelling conventions:
- Machine integers are modelled as `Nat`/`Int`; physical block numbers are
  `Nat` (the kernel's FIBMAP block number), while the range array keeps `Int`
  entries because the C code uses the sentinel value `-1` for the not-yet-open
  first range.
- The growable `int* ranges` array (with `range_used` ranges, most recent
  last) is modelled as a `List (Int × Int)` kept with the most recent range
  FIRST; serialization reverses it.  `realloc` doubling is memory management
  with no observable effect and is not modelled.
- File descriptors and streams are modelled by their observable effects: the
  map stream is the `String` of bytes written to it, the raw device is a
  function `Nat → Nat` from byte address to byte value, and the source file is
  a function `Nat → Nat` from offset to byte plus its `stat` size.
- Fallible kernel calls are driven by explicit oracles: `resolver` for the
  FIBMAP ioctl (`none` = failure), `readOk` for per-block read success,
  `writeOracle` for the byte counts successive `write(2)` calls return
  (negative = error), and Booleans for `stat`/`open` success.
- `while` loops become fuel-based structural recursions; the fuel passed by
  `produce_block_map` provably exceeds the iteration count of every loop.
-/

namespace Uncrypt

def WINDOW_SIZE : Nat := 5

/-- `add_block_to_ranges` (uncrypt.c:75).  The list holds the most recent
range first (the C array's `ranges[range_used-1]` is our head).  The `[]` case
is unreachable: the C code establishes `range_used == 1` before any call. -/
def add_block_to_ranges (ranges : List (Int × Int)) (new_block : Int) :
    List (Int × Int) :=
  match ranges with
  | [] => []
  | (s, e) :: rest =>
    -- If the current block start is < 0, set the start to the new block.
    -- (This only happens for the very first block of the very first range.)
    let p := if s < 0 then (new_block, new_block) else (s, e)
    if new_block = p.2 then
      -- the new block comes immediately after the current range: extend it
      (p.1, p.2 + 1) :: rest
    else
      -- start a new range
      (new_block, new_block + 1) :: p :: rest

/-- The coalescer state after feeding a whole block sequence, starting from
the initial sentinel state `ranges[0] = ranges[1] = -1`, `range_used = 1`
(uncrypt.c:193-197). -/
def coalesce (l : List Int) : List (Int × Int) :=
  l.foldl add_block_to_ranges [(-1, -1)]

/-- Number of non-adjacent transitions in a block sequence: indices `i ≥ 1`
with `b i ≠ b (i-1) + 1`. -/
def transitions : List Int → Nat
  | a :: b :: rest => (if b = a + 1 then 0 else 1) + transitions (b :: rest)
  | _ => 0

/-- The blocks of the half-open range `[s, e)`, in order. -/
def expandRange (s e : Int) : List Int :=
  (List.range (e - s).toNat).map (fun (k : Nat) => s + (k : Int))

/-- A range list expanded to the block sequence it denotes (list order). -/
def expandRanges (rs : List (Int × Int)) : List Int :=
  (rs.map (fun r => expandRange r.1 r.2)).flatten

/-- Total span `Σ (end_i - start_i)` of a range list. -/
def rangeSpan (rs : List (Int × Int)) : Int :=
  (rs.map (fun r => r.2 - r.1)).sum

/-- Effect of one successful `write(2)` of `w` bytes: bytes
`buffer[written .. written+w)` land at device addresses
`offset+written .. offset+written+w)`. -/
def devWrite (dev : Nat → Nat) (offset : Nat) (buffer : Nat → Nat)
    (written w : Nat) : Nat → Nat :=
  fun a =>
    if offset + written ≤ a ∧ a < offset + written + w then buffer (a - offset)
    else dev a

/-- The `while (written < size)` loop of `write_at_offset` (uncrypt.c:64).
`oracle` lists the results of successive `write(2)` calls (negative means the
call reported an error).  Returns the device contents on success; `none` on a
write error (or if the oracle is exhausted, which no physical device does). -/
def writeLoop (buffer : Nat → Nat) (size : Nat) (dev : Nat → Nat)
    (offset : Nat) : Nat → List Int → Option (Nat → Nat)
  | written, oracle =>
    if written < size then
      match oracle with
      | [] => none
      | wrote :: rest =>
        if wrote < 0 then none
        else
          writeLoop buffer size (devWrite dev offset buffer written wrote.toNat)
            offset (written + wrote.toNat) rest
    else some dev

/-- `write_at_offset` (uncrypt.c:59): seek to `offset`, then loop until all
`size` bytes are committed. -/
def write_at_offset (buffer : Nat → Nat) (size : Nat) (dev : Nat → Nat)
    (offset : Nat) (oracle : List Int) : Option (Nat → Nat) :=
  writeLoop buffer size dev offset 0 oracle

/-- `Delivers oracle size`: the write-result sequence drives the loop to
completion with no error — every result is a non-negative count of at most the
bytes still requested, and the whole `size` gets committed. -/
def Delivers : List Int → Nat → Bool
  | _, 0 => true
  | [], _ + 1 => false
  | w :: rest, r + 1 =>
    if w < 0 then false
    else if r + 1 < w.toNat then false
    else Delivers rest (r + 1 - w.toNat)

/-- `ErrorsAt oracle size`: some `write(2)` call made by the loop reports an
error (a negative result is hit while bytes are still outstanding, earlier
results being well-formed short or full writes). -/
def ErrorsAt : List Int → Nat → Bool
  | _, 0 => false
  | [], _ + 1 => false
  | w :: rest, r + 1 =>
    if w < 0 then true
    else if r + 1 < w.toNat then false
    else ErrorsAt rest (r + 1 - w.toNat)

/-- Effect of one `read(2)` of `m` bytes at file position `pos` into buffer
index `so_far`: `buf[so_far .. so_far+m)` receives `fileData[pos .. pos+m)`. -/
def bufWrite (buf : Nat → Nat) (so_far : Nat) (fileData : Nat → Nat)
    (pos m : Nat) : Nat → Nat :=
  fun j =>
    if so_far ≤ j ∧ j < so_far + m then fileData (pos + (j - so_far)) else buf j

/-- The inner read loop of `produce_block_map` (uncrypt.c:250): read until the
buffer holds a full block or the file is exhausted.  A `read(2)` from the
sequential source descriptor returns `min (bs - so_far) (size - pos)` bytes;
`ok = false` models a read that reports an error.  Returns the filled buffer
and the new file position.  The fuel passed by the pipeline (`bs`) always
suffices, because each successful read advances `so_far` by at least one. -/
def readLoop (ok : Bool) (size bs : Nat) (fileData : Nat → Nat) :
    Nat → (Nat → Nat) → Nat → Nat → Option ((Nat → Nat) × Nat)
  | 0, buf, so_far, pos =>
    if so_far < bs ∧ pos < size then none else some (buf, pos)
  | fuel + 1, buf, so_far, pos =>
    if so_far < bs ∧ pos < size then
      if ok then
        let this_read := min (bs - so_far) (size - pos)
        readLoop ok size bs fileData fuel
          (bufWrite buf so_far fileData pos this_read)
          (so_far + this_read) (pos + this_read)
      else none
    else some (buf, pos)

/-- Replace window slot `k`. -/
def updateSlot (bufs : Nat → Nat → Nat) (k : Nat) (b : Nat → Nat) :
    Nat → Nat → Nat :=
  fun s => if s = k then b else bufs s

/-- The mutable local state of `produce_block_map`'s pipeline
(uncrypt.c:192-210).  `ranges` keeps the most recent range first (see
`add_block_to_ranges`).  `admitted`, `resolved` and `trace` are ghost
instrumentation fields: the number of loop admissions, the physical blocks
resolved in flush order, and the count of window slots holding unflushed data
recorded after every state change — they influence no computed output. -/
structure PipeState where
  ranges : List (Int × Int)
  bufs : Nat → Nat → Nat
  head : Nat
  tail : Nat
  head_block : Nat
  pos : Nat
  dev : Nat → Nat
  admitted : Nat
  resolved : List Nat
  trace : List Nat

/-- Initial pipeline state: sentinel range, zeroed window (malloc contents are
unspecified; no claim inspects bytes the pipeline did not store). -/
def initState (dev0 : Nat → Nat) : PipeState :=
  { ranges := [(-1, -1)], bufs := fun _ _ => 0, head := 0, tail := 0,
    head_block := 0, pos := 0, dev := dev0, admitted := 0, resolved := [],
    trace := [] }

/-- "write out head buffer" (uncrypt.c:230-244 and 269-283): resolve
`head_block` via FIBMAP, feed the block to the coalescer, shadow-write the
head buffer at byte offset `bs * block` when encrypted, then advance `head`.
`none` models the `return -1` paths (resolution or write failure). -/
def flushHead (bs : Nat) (resolver : Nat → Option Nat)
    (writeOracle : Nat → List Int) (encrypted : Bool) (st : PipeState) :
    Option PipeState :=
  match resolver st.head_block with
  | none => none
  | some block =>
    let st1 : PipeState :=
      { st with
        ranges := add_block_to_ranges st.ranges ((block : Nat) : Int),
        resolved := st.resolved ++ [block],
        head := (st.head + 1) % WINDOW_SIZE,
        head_block := st.head_block + 1,
        trace := st.trace ++ [st.admitted - (st.head_block + 1)] }
    if encrypted then
      match write_at_offset (st.bufs st.head) bs st.dev (bs * block)
          (writeOracle st.head_block) with
      | none => none
      | some dev2 => some { st1 with dev := dev2 }
    else some st1

/-- Admission of the block just read into slot `tail` (uncrypt.c:247-265,
encrypted branch): store the filled buffer, take the new file position, and
advance `tail`. -/
def admitRead (st : PipeState) (buf : Nat → Nat) (pos2 : Nat) : PipeState :=
  { st with bufs := updateSlot st.bufs st.tail buf, pos := pos2,
            tail := (st.tail + 1) % WINDOW_SIZE, admitted := st.admitted + 1,
            trace := st.trace ++ [st.admitted + 1 - st.head_block] }

/-- Admission in the unencrypted case (uncrypt.c:259-264): nothing is read,
`pos` just skips forward one block. -/
def admitSkip (st : PipeState) (bs : Nat) : PipeState :=
  { st with pos := st.pos + bs,
            tail := (st.tail + 1) % WINDOW_SIZE, admitted := st.admitted + 1,
            trace := st.trace ++ [st.admitted + 1 - st.head_block] }

/-- The main pipeline loop `while (pos < sb.st_size)` (uncrypt.c:228-266).
Returns the final state and whether the loop completed without a failure
return.  On failure the state reached so far is reported (the C code discards
it by returning `-1`). -/
def mainLoop (size bs : Nat) (fileData : Nat → Nat)
    (resolver : Nat → Option Nat) (readOk : Nat → Bool)
    (writeOracle : Nat → List Int) (encrypted : Bool) :
    Nat → PipeState → PipeState × Bool
  | 0, st => if st.pos < size then (st, false) else (st, true)
  | fuel + 1, st =>
    if st.pos < size then
      match if (st.tail + 1) % WINDOW_SIZE = st.head then
          flushHead bs resolver writeOracle encrypted st else some st with
      | none => (st, false)
      | some st1 =>
        if encrypted then
          match readLoop (readOk st1.admitted) size bs fileData bs
              (st1.bufs st1.tail) 0 st1.pos with
          | none => (st1, false)
          | some (buf2, pos2) =>
            mainLoop size bs fileData resolver readOk writeOracle encrypted
              fuel (admitRead st1 buf2 pos2)
        else
          mainLoop size bs fileData resolver readOk writeOracle encrypted
            fuel (admitSkip st1 bs)
    else (st, true)

/-- The drain loop `while (head != tail)` (uncrypt.c:268-284). -/
def drainLoop (bs : Nat) (resolver : Nat → Option Nat)
    (writeOracle : Nat → List Int) (encrypted : Bool) :
    Nat → PipeState → PipeState × Bool
  | 0, st => if st.head ≠ st.tail then (st, false) else (st, true)
  | fuel + 1, st =>
    if st.head ≠ st.tail then
      match flushHead bs resolver writeOracle encrypted st with
      | none => (st, false)
      | some st1 =>
        drainLoop bs resolver writeOracle encrypted fuel st1
    else (st, true)

/-- The range lines emitted by the final `for` loop (uncrypt.c:287-289),
`"%d %d\n"` per range, over the finalized (chronological) range list. -/
def serializeRanges : List (Int × Int) → String
  | [] => ""
  | (s, e) :: rest => toString s ++ " " ++ toString e ++ "\n" ++ serializeRanges rest

/-- Observable outcome of one `produce_block_map` call.  `mapOut` is the byte
stream written to the map file, `dev` the raw device contents, `leaked` the
descriptors opened by the call and still open when it returns, `ranges` the
finalized coalescer list, and `resolved`/`trace` the ghost instrumentation. -/
structure PassOutcome where
  ok : Bool
  mapOut : String
  dev : Nat → Nat
  leaked : List String
  ranges : List (Int × Int)
  resolved : List Nat
  trace : List Nat

/-- `produce_block_map` (uncrypt.c:173-298).  `statOk`, `openOk`, `wopenOk`
model success of `stat(path)`, `open(path, O_RDONLY)` and
`open(blk_dev, O_WRONLY)`; the unchecked `fopen(map_file, "w")` always yields
the map stream.  The C code's `int blocks` (line 189) is computed only for a
log message and is not part of the model.  Loop fuels `size + 1` and
`WINDOW_SIZE` strictly exceed the respective iteration counts. -/
def produce_block_map (statOk openOk wopenOk : Bool) (blk_dev : String)
    (size bs : Nat) (dev0 : Nat → Nat) (fileData : Nat → Nat)
    (resolver : Nat → Option Nat) (readOk : Nat → Bool)
    (writeOracle : Nat → List Int) (encrypted : Bool) : PassOutcome :=
  if statOk = false then
    -- stat failed: return -1 with the map stream open and nothing written
    { ok := false, mapOut := "", dev := dev0, leaked := ["mapf"],
      ranges := [], resolved := [], trace := [] }
  else
    -- fprintf(mapf, "%s\n%lld %lu\n", blk_dev, sb.st_size, sb.st_blksize)
    let header := blk_dev ++ "\n" ++ toString size ++ " " ++ toString bs ++ "\n"
    if openOk = false then
      { ok := false, mapOut := header, dev := dev0, leaked := ["mapf"],
        ranges := [], resolved := [], trace := [] }
    else if encrypted ∧ wopenOk = false then
      { ok := false, mapOut := header, dev := dev0, leaked := ["mapf", "fd"],
        ranges := [], resolved := [], trace := [] }
    else
      let wfds := if encrypted then ["wfd"] else []
      match mainLoop size bs fileData resolver readOk writeOracle encrypted
          (size + 1) (initState dev0) with
      | (st, false) =>
        { ok := false, mapOut := header, dev := st.dev,
          leaked := ["mapf", "fd"] ++ wfds, ranges := st.ranges.reverse,
          resolved := st.resolved, trace := st.trace }
      | (st, true) =>
        match drainLoop bs resolver writeOracle encrypted WINDOW_SIZE st with
        | (st2, false) =>
          { ok := false, mapOut := header, dev := st2.dev,
            leaked := ["mapf", "fd"] ++ wfds, ranges := st2.ranges.reverse,
            resolved := st2.resolved, trace := st2.trace }
        | (st2, true) =>
          let fin := st2.ranges.reverse
          -- fprintf(mapf, "%d\n", range_used); per-range "%d %d\n";
          -- fclose(mapf); close(fd); if (encrypted) close(wfd)
          { ok := true,
            mapOut := header ++ toString fin.length ++ "\n" ++ serializeRanges fin,
            dev := st2.dev, leaked := [], ranges := fin,
            resolved := st2.resolved, trace := st2.trace }

/-- Number of logical blocks the pipeline admits: `ceil (size / bs)`. -/
def blockCount (size bs : Nat) : Nat := (size + bs - 1) / bs

/-- Reading the file back through a serialized block list: byte `p` comes from
device address `blocks[p / bs] * bs + p % bs`. -/
def readBack (dev : Nat → Nat) (blocks : List Int) (bs size : Nat) :
    List Nat :=
  (List.range size).map (fun p => dev ((blocks.getD (p / bs) 0).toNat * bs + p % bs))

/-- Cursor/position invariant of the pipeline loops.  Holds at every step of
every run, whatever the oracles report. -/
structure CursorInv (size bs : Nat) (encrypted : Bool) (st : PipeState) :
    Prop where
  head_eq : st.head = st.head_block % WINDOW_SIZE
  tail_eq : st.tail = st.admitted % WINDOW_SIZE
  hb_le : st.head_block ≤ st.admitted
  adm_le : st.admitted ≤ st.head_block + (WINDOW_SIZE - 1)
  adm_leN : st.admitted ≤ blockCount size bs
  pos_eq : st.pos = if encrypted then min (st.admitted * bs) size
      else st.admitted * bs
  trace_inv : ∀ x ∈ st.trace, x < WINDOW_SIZE

/-- Data invariant of a run whose resolver agrees with the mapping `f` and
whose reads/writes succeed: the coalescer state, the resolved-block ghost, the
window contents and the device contents are all determined by how far the
pipeline has progressed. -/
structure DataInv (size bs : Nat) (fileData : Nat → Nat) (encrypted : Bool)
    (f : Nat → Nat) (st : PipeState) : Prop where
  resolved_eq : st.resolved = (List.range st.head_block).map f
  ranges_eq : st.ranges =
      coalesce ((List.range st.head_block).map (fun (k : Nat) => ((f k : Nat) : Int)))
  bufs_inv : encrypted = true → ∀ i, st.head_block ≤ i → i < st.admitted →
      ∀ j, j < bs → i * bs + j < size →
        st.bufs (i % WINDOW_SIZE) j = fileData (i * bs + j)
  dev_inv : encrypted = true → (∀ a b, f a = f b → a = b) →
      ∀ i, i < st.head_block → ∀ j, j < bs → i * bs + j < size →
        st.dev (f i * bs + j) = fileData (i * bs + j)

/-! ## Raw device writer -/

lemma writeLoop_delivers (buffer : Nat → Nat) (size offset : Nat) :
    ∀ (oracle : List Int) (written : Nat) (dev : Nat → Nat),
      Delivers oracle (size - written) = true →
      ∃ dev', writeLoop buffer size dev offset written oracle = some dev' ∧
        (∀ j, written ≤ j → j < size → dev' (offset + j) = buffer j) ∧
        (∀ a, a < offset + written ∨ offset + size ≤ a → dev' a = dev a) := by
  intro oracle
  induction oracle with
  | nil =>
    intro written dev h
    have hsz : ¬ written < size := by
      by_contra hlt
      have hne : size - written = (size - written - 1) + 1 := by omega
      rw [hne] at h
      simp [Delivers] at h
    exact ⟨dev, by simp [writeLoop, hsz], fun j h1 h2 => absurd h2 (by omega),
      fun a _ => rfl⟩
  | cons w rest ih =>
    intro written dev h
    by_cases hsz : written < size
    · have hne : size - written = (size - written - 1) + 1 := by omega
      rw [hne] at h
      simp only [Delivers] at h
      split at h
      · simp at h
      next hw0 =>
        split at h
        · simp at h
        next hwle =>
          have hwsz : w.toNat ≤ size - written := by omega
          have hrec := ih (written + w.toNat)
            (devWrite dev offset buffer written w.toNat) (by
              have heq : size - (written + w.toNat) =
                  size - written - 1 + 1 - w.toNat := by omega
              rw [heq]; exact h)
          obtain ⟨dev', he, hbytes, hout⟩ := hrec
          refine ⟨dev', ?_, ?_, ?_⟩
          · simp only [writeLoop, if_pos hsz, if_neg hw0]
            exact he
          · intro j hj1 hj2
            by_cases hj3 : written + w.toNat ≤ j
            · exact hbytes j hj3 hj2
            · rw [hout (offset + j) (Or.inl (by omega))]
              simp only [devWrite]
              rw [if_pos ⟨by omega, by omega⟩]
              congr 1
              omega
          · intro a ha
            rw [hout a (by omega)]
            simp only [devWrite]
            rw [if_neg (by omega)]
    · exact ⟨dev, by simp [writeLoop, hsz], fun j h1 h2 => absurd h2 (by omega),
        fun a _ => rfl⟩

lemma writeLoop_errors (buffer : Nat → Nat) (size offset : Nat) :
    ∀ (oracle : List Int) (written : Nat) (dev : Nat → Nat),
      ErrorsAt oracle (size - written) = true →
      writeLoop buffer size dev offset written oracle = none := by
  intro oracle
  induction oracle with
  | nil =>
    intro written dev h
    rcases Nat.eq_zero_or_pos (size - written) with h0 | h0
    · rw [h0] at h; simp [ErrorsAt] at h
    · have hne : size - written = (size - written - 1) + 1 := by omega
      rw [hne] at h
      simp [ErrorsAt] at h
  | cons w rest ih =>
    intro written dev h
    have hsz : written < size := by
      by_contra hge
      have h0 : size - written = 0 := by omega
      rw [h0] at h
      simp [ErrorsAt] at h
    have hne : size - written = (size - written - 1) + 1 := by omega
    rw [hne] at h
    simp only [ErrorsAt] at h
    split at h
    next hw0 =>
      simp only [writeLoop, if_pos hsz, if_pos hw0]
    next hw0 =>
      split at h
      · simp at h
      next hwle =>
        simp only [writeLoop, if_pos hsz, if_neg hw0]
        exact ih (written + w.toNat)
          (devWrite dev offset buffer written w.toNat) (by
            have heq : size - (written + w.toNat) =
                size - written - 1 + 1 - w.toNat := by omega
            rw [heq]; exact h)

/-- C6: `write_at_offset` fails iff some underlying write call reports an
error; a short write is not an error — the loop resumes with the remaining
slice at the correct position — and on success the full `size` bytes are
committed, so the device bytes at `[offset, offset + size)` equal the input
buffer exactly and all other device bytes are untouched. -/
theorem write_at_offset_spec (buffer dev : Nat → Nat) (size offset : Nat)
    (oracle : List Int) :
    (Delivers oracle size = true →
      ∃ dev', write_at_offset buffer size dev offset oracle = some dev' ∧
        (∀ j, j < size → dev' (offset + j) = buffer j) ∧
        (∀ a, a < offset ∨ offset + size ≤ a → dev' a = dev a)) ∧
    (ErrorsAt oracle size = true →
      write_at_offset buffer size dev offset oracle = none) ∧
    ((Delivers oracle size = true ∨ ErrorsAt oracle size = true) →
      (write_at_offset buffer size dev offset oracle = none ↔
        ErrorsAt oracle size = true)) := by
  have hdel := writeLoop_delivers buffer size offset oracle 0 dev
  have herr := writeLoop_errors buffer size offset oracle 0 dev
  rw [Nat.sub_zero] at hdel herr
  simp only [write_at_offset]
  refine ⟨?_, ?_, ?_⟩
  · intro h
    obtain ⟨dev', he, hbytes, hout⟩ := hdel h
    exact ⟨dev', he, fun j hj => hbytes j (Nat.zero_le j) hj,
      fun a ha => hout a (by omega)⟩
  · intro h
    exact herr h
  · rintro (h | h)
    · obtain ⟨dev', he, _, _⟩ := hdel h
      constructor
      · intro hn
        rw [hn] at he
        exact absurd he (by simp)
      · intro he2
        exact herr he2
    · simp [herr h, h]

/-- Witness for C6 at concrete inputs: the oracle `[1, 2]` (a short write of
one byte, then the remaining two) delivers all three bytes of the buffer, and
the oracle `[1, -1]` (a short write, then an error) makes the call fail. -/
theorem write_at_offset_spec_witness :
    (∃ dev', write_at_offset (fun j => j + 10) 3 (fun _ => 0) 100 [1, 2]
        = some dev' ∧
      (∀ j, j < 3 → dev' (100 + j) = j + 10) ∧
      (∀ a, a < 100 ∨ 100 + 3 ≤ a → dev' a = 0)) ∧
    write_at_offset (fun j => j + 10) 3 (fun _ => 0) 100 [1, -1] = none :=
  ⟨(write_at_offset_spec (fun j => j + 10) (fun _ => 0) 3 100 [1, 2]).1
      (by decide),
    (write_at_offset_spec (fun j => j + 10) (fun _ => 0) 3 100 [1, -1]).2.1
      (by decide)⟩

/-! ## Range coalescer -/

lemma expandRange_single (b : Int) : expandRange b (b + 1) = [b] := by
  have h1 : (b + 1 - b).toNat = 1 := by omega
  simp [expandRange, h1, List.range_succ]

lemma expandRange_succ (s e : Int) (h : s ≤ e) :
    expandRange s (e + 1) = expandRange s e ++ [e] := by
  have h1 : (e + 1 - s).toNat = (e - s).toNat + 1 := by omega
  rw [expandRange, h1, List.range_succ, List.map_append]
  rw [expandRange]
  simp only [List.map_cons, List.map_nil]
  congr 2
  omega

lemma expandRanges_append (rs1 rs2 : List (Int × Int)) :
    expandRanges (rs1 ++ rs2) = expandRanges rs1 ++ expandRanges rs2 := by
  simp [expandRanges]

lemma rangeSpan_cons (s e : Int) (rest : List (Int × Int)) :
    rangeSpan ((s, e) :: rest) = (e - s) + rangeSpan rest := by
  simp [rangeSpan]

lemma rangeSpan_reverse (rs : List (Int × Int)) :
    rangeSpan rs.reverse = rangeSpan rs := by
  simp [rangeSpan, List.map_reverse, List.sum_reverse]

lemma transitions_concat (b t : Int) :
    ∀ (l : List Int), transitions ((l ++ [t]) ++ [b]) =
      transitions (l ++ [t]) + (if b = t + 1 then 0 else 1) := by
  intro l
  induction l with
  | nil => simp [transitions, Nat.add_comm]
  | cons a l ih =>
    cases l with
    | nil => simp only [List.nil_append, List.cons_append, transitions]; omega
    | cons c l' =>
      simp only [List.cons_append] at ih ⊢
      simp only [transitions] at ih ⊢
      omega

/-- Structure of the coalescer state after feeding a non-empty sequence of
non-negative blocks: the current (front) range ends just past the last block
fed, the finalized list expands back to exactly the input sequence, the range
count is one plus the number of non-adjacent transitions, and the total span
equals the number of blocks fed. -/
lemma coalesce_spec : ∀ (l : List Int), l ≠ [] → (∀ b ∈ l, 0 ≤ b) →
    ∃ s rest t, l.getLast? = some t ∧ coalesce l = (s, t + 1) :: rest ∧
      0 ≤ s ∧ s ≤ t ∧
      expandRanges (coalesce l).reverse = l ∧
      (coalesce l).length = 1 + transitions l ∧
      rangeSpan (coalesce l) = (l.length : Int) := by
  intro l
  induction l using List.reverseRecOn with
  | nil => intro h; exact absurd rfl h
  | append_singleton l b ih =>
    intro _ hnn
    have hb : 0 ≤ b := hnn b (by simp)
    rcases eq_or_ne l [] with rfl | hl
    · simp only [List.nil_append]
      have hco : coalesce [b] = [(b, b + 1)] := by
        have h1 : coalesce [b] = add_block_to_ranges [(-1, -1)] b := rfl
        rw [h1]
        norm_num [add_block_to_ranges]
      refine ⟨b, [], b, by simp, by rw [hco], hb, le_refl b, ?_, ?_, ?_⟩
      · rw [hco]
        simp [expandRanges, expandRange_single]
      · rw [hco]; rfl
      · rw [hco, rangeSpan_cons]
        simp [rangeSpan]
    · obtain ⟨s, rest, t, hlast, hco, hs0, hst, hexp, hlen, hspan⟩ :=
        ih hl (fun x hx => hnn x (by simp [hx]))
      obtain ⟨L, x, hL0⟩ := (List.eq_nil_or_concat l).resolve_left hl
      have hL : l = L ++ [x] := by rw [hL0, List.concat_eq_append]
      have hxt : x = t := by
        have h2 := hlast
        rw [hL, List.getLast?_concat] at h2
        exact Option.some_inj.mp h2
      rw [hxt] at hL
      have htr : transitions (l ++ [b]) =
          transitions l + (if b = t + 1 then 0 else 1) := by
        rw [hL]
        exact transitions_concat b t L
      have hco2 : coalesce (l ++ [b]) = add_block_to_ranges (coalesce l) b := by
        simp [coalesce, List.foldl_append]
      rw [hco] at hco2
      have hs0' : ¬ (s < 0) := by omega
      have hlast2 : (l ++ [b]).getLast? = some b := by
        simp
      by_cases hbe : b = t + 1
      · have hadd : add_block_to_ranges ((s, t + 1) :: rest) b =
            (s, t + 1 + 1) :: rest := by
          simp only [add_block_to_ranges, if_neg hs0']
          rw [if_pos hbe]
        rw [hadd] at hco2
        refine ⟨s, rest, b, hlast2, by rw [hco2, hbe], hs0, by omega, ?_, ?_, ?_⟩
        · rw [hco2]
          rw [hco] at hexp
          have hrev : ((s, t + 1 + 1) :: rest).reverse =
              rest.reverse ++ [(s, t + 1 + 1)] := by simp
          have hrev' : ((s, t + 1) :: rest).reverse =
              rest.reverse ++ [(s, t + 1)] := by simp
          rw [hrev'] at hexp
          rw [hrev]
          rw [expandRanges_append] at hexp ⊢
          have hone : expandRanges [(s, t + 1 + 1)] =
              expandRanges [(s, t + 1)] ++ [t + 1] := by
            simp only [expandRanges, List.map_cons, List.map_nil,
              List.flatten_cons, List.flatten_nil, List.append_nil]
            exact expandRange_succ s (t + 1) (by omega)
          rw [hone, ← List.append_assoc, hexp, hbe]
        · rw [hco2, htr, if_pos hbe, Nat.add_zero]
          rw [hco] at hlen
          simp only [List.length_cons] at hlen ⊢
          omega
        · rw [hco2]
          rw [hco] at hspan
          simp only [rangeSpan_cons] at hspan ⊢
          simp only [List.length_append, List.length_singleton]
          push_cast
          omega
      · have hadd : add_block_to_ranges ((s, t + 1) :: rest) b =
            (b, b + 1) :: (s, t + 1) :: rest := by
          simp only [add_block_to_ranges, if_neg hs0']
          rw [if_neg hbe]
        rw [hadd] at hco2
        refine ⟨b, (s, t + 1) :: rest, b, hlast2, hco2, hb, le_refl b, ?_, ?_, ?_⟩
        · rw [hco2]
          rw [hco] at hexp
          have hrev : ((b, b + 1) :: (s, t + 1) :: rest).reverse =
              ((s, t + 1) :: rest).reverse ++ [(b, b + 1)] := by simp
          rw [hrev, expandRanges_append, hexp]
          congr 1
          simp [expandRanges, expandRange_single]
        · rw [hco2, htr, if_neg hbe]
          rw [hco] at hlen
          simp only [List.length_cons] at hlen ⊢
          omega
        · rw [hco2]
          rw [hco] at hspan
          simp only [rangeSpan_cons] at hspan ⊢
          simp only [List.length_append, List.length_singleton]
          push_cast
          omega

/-- C3: for every non-empty sequence of physical block numbers fed in order
to the coalescer's add-block operation, the finalized range list satisfies
`Σ (end_i - start_i) = k` (the number of blocks fed) and its length is `1`
plus the number of indices `i ≥ 1` with `b i ≠ b (i-1) + 1`; in particular
consecutive blocks `b, b+1` extend one range and any non-consecutive pair
opens a new one. -/
theorem add_block_to_ranges_conservation (blocks : List Nat)
    (hne : blocks ≠ []) :
    rangeSpan (coalesce (blocks.map (fun (b : Nat) => (b : Int)))).reverse
      = (blocks.length : Int) ∧
    (coalesce (blocks.map (fun (b : Nat) => (b : Int)))).reverse.length
      = 1 + transitions (blocks.map (fun (b : Nat) => (b : Int))) := by
  have hl : blocks.map (fun (b : Nat) => (b : Int)) ≠ [] := by
    simpa using hne
  obtain ⟨s, rest, t, _, _, _, _, _, hlen, hspan⟩ :=
    coalesce_spec _ hl (by
      intro x hx
      simp only [List.mem_map] at hx
      obtain ⟨a, _, rfl⟩ := hx
      exact Int.natCast_nonneg a)
  refine ⟨?_, ?_⟩
  · rw [rangeSpan_reverse, hspan]
    simp
  · rw [List.length_reverse]
    exact hlen

/-- Witness for C3 at the concrete sequence `[5, 6, 9]`: one adjacent pair
and one non-adjacent transition give span `3` and `2 = 1 + 1` ranges. -/
theorem add_block_to_ranges_conservation_witness :
    rangeSpan (coalesce (([5, 6, 9] : List Nat).map (fun (b : Nat) => (b : Int)))).reverse
      = (([5, 6, 9] : List Nat).length : Int) ∧
    (coalesce (([5, 6, 9] : List Nat).map (fun (b : Nat) => (b : Int)))).reverse.length
      = 1 + transitions (([5, 6, 9] : List Nat).map (fun (b : Nat) => (b : Int))) :=
  add_block_to_ranges_conservation [5, 6, 9] (by decide)

/-- C5 (code bug): a zero-length file makes the pass succeed, but the
serialized artifact carries range-count line `1` and the bogus sentinel range
line `-1 -1` — not range-count `0` with no range lines, as specified.  The
`range_used = 1` initialization (uncrypt.c:194-197) is never corrected when
no block is ever fed to the coalescer. -/
theorem produce_block_map_zero_length_bug :
    (produce_block_map true true true "/dev/blockdev" 0 4096 (fun _ => 0)
      (fun _ => 0) (fun k => some k) (fun _ => true)
      (fun _ => [(4096 : Int)]) false).ok = true ∧
    (produce_block_map true true true "/dev/blockdev" 0 4096 (fun _ => 0)
      (fun _ => 0) (fun k => some k) (fun _ => true)
      (fun _ => [(4096 : Int)]) false).mapOut =
      "/dev/blockdev\n0 4096\n1\n-1 -1\n" := by decide

/-- C9 (code bug): early-failure exits of `produce_block_map` leave
descriptors open.  A `stat` failure returns with the map stream still open
(uncrypt.c:182-185, opened at line 179); a resolution failure returns with
both the map stream and the source fd open (uncrypt.c:233-236). -/
theorem produce_block_map_descriptor_leak :
    ((produce_block_map false true true "/dev/blockdev" 4096 4096 (fun _ => 0)
      (fun _ => 0) (fun k => some k) (fun _ => true)
      (fun _ => [(4096 : Int)]) false).ok = false ∧
     (produce_block_map false true true "/dev/blockdev" 4096 4096 (fun _ => 0)
      (fun _ => 0) (fun k => some k) (fun _ => true)
      (fun _ => [(4096 : Int)]) false).leaked = ["mapf"]) ∧
    ((produce_block_map true true true "/dev/blockdev" 4096 4096 (fun _ => 0)
      (fun _ => 0) (fun _ => none) (fun _ => true)
      (fun _ => [(4096 : Int)]) false).ok = false ∧
     (produce_block_map true true true "/dev/blockdev" 4096 4096 (fun _ => 0)
      (fun _ => 0) (fun _ => none) (fun _ => true)
      (fun _ => [(4096 : Int)]) false).leaked = ["mapf", "fd"]) := by decide

/-- C7 (counterexample): a run whose only block fails to resolve returns
failure, yet its map output already contains the device-path/size header —
the failing pass's map output is not free of block-map content. -/
theorem produce_block_map_failing_header_counterexample :
    (produce_block_map true true true "/dev/blockdev" 4096 4096 (fun _ => 0)
      (fun _ => 0) (fun _ => none) (fun _ => true)
      (fun _ => [(4096 : Int)]) false).ok = false ∧
    (produce_block_map true true true "/dev/blockdev" 4096 4096 (fun _ => 0)
      (fun _ => 0) (fun _ => none) (fun _ => true)
      (fun _ => [(4096 : Int)]) false).mapOut = "/dev/blockdev\n4096 4096\n" ∧
    (produce_block_map true true true "/dev/blockdev" 4096 4096 (fun _ => 0)
      (fun _ => 0) (fun _ => none) (fun _ => true)
      (fun _ => [(4096 : Int)]) false).mapOut ≠ "" := by decide

/-- C2 (counterexample): with a non-injective resolver (both logical blocks
map to physical block `0`; file of two one-byte blocks with bytes `1, 2`),
the encrypted pass succeeds but reading back through the serialized ranges
does not reproduce the file: the second shadow write overwrites the first. -/
theorem shadow_write_roundtrip_counterexample :
    (produce_block_map true true true "d" 2 1 (fun _ => 0) (fun p => p + 1)
      (fun _ => some 0) (fun _ => true) (fun _ => [(1 : Int)]) true).ok
      = true ∧
    readBack
      (produce_block_map true true true "d" 2 1 (fun _ => 0) (fun p => p + 1)
        (fun _ => some 0) (fun _ => true) (fun _ => [(1 : Int)]) true).dev
      (expandRanges
        (produce_block_map true true true "d" 2 1 (fun _ => 0) (fun p => p + 1)
          (fun _ => some 0) (fun _ => true) (fun _ => [(1 : Int)]) true).ranges)
      1 2 ≠ (List.range 2).map (fun p => p + 1) := by decide

/-! ## Pipeline invariants -/

lemma blockCount_le (size bs : Nat) (hbs : 0 < bs) :
    blockCount size bs ≤ size := by
  unfold blockCount
  rw [Nat.div_le_iff_le_mul_add_pred hbs]
  have h := Nat.le_mul_of_pos_left size hbs
  omega

lemma lt_blockCount_iff (size bs a : Nat) (hbs : 0 < bs) :
    a * bs < size ↔ a < blockCount size bs := by
  unfold blockCount
  have h1 : a < (size + bs - 1) / bs ↔ a + 1 ≤ (size + bs - 1) / bs := Iff.rfl
  rw [h1, Nat.le_div_iff_mul_le hbs]
  have h2 : (a + 1) * bs = a * bs + bs := by ring
  rw [h2]
  generalize a * bs = x
  omega

lemma coalesce_append_single (l : List Int) (x : Int) :
    coalesce (l ++ [x]) = add_block_to_ranges (coalesce l) x := by
  simp [coalesce, List.foldl_append]

/-- Successful `flushHead` runs are fully characterized by the resolved block
and the shadow-write result. -/
lemma flushHead_eq_some (bs : Nat) (resolver : Nat → Option Nat)
    (writeOracle : Nat → List Int) (encrypted : Bool) (st st' : PipeState)
    (h : flushHead bs resolver writeOracle encrypted st = some st') :
    ∃ block, resolver st.head_block = some block ∧
      st'.ranges = add_block_to_ranges st.ranges ((block : Nat) : Int) ∧
      st'.resolved = st.resolved ++ [block] ∧
      st'.head = (st.head + 1) % WINDOW_SIZE ∧
      st'.head_block = st.head_block + 1 ∧
      st'.tail = st.tail ∧ st'.pos = st.pos ∧ st'.admitted = st.admitted ∧
      st'.bufs = st.bufs ∧
      st'.trace = st.trace ++ [st.admitted - (st.head_block + 1)] ∧
      (encrypted = true →
        write_at_offset (st.bufs st.head) bs st.dev (bs * block)
          (writeOracle st.head_block) = some st'.dev) ∧
      (encrypted = false → st'.dev = st.dev) := by
  unfold flushHead at h
  cases hres : resolver st.head_block with
  | none => rw [hres] at h; exact absurd h (by simp)
  | some block =>
    rw [hres] at h
    simp only at h
    refine ⟨block, rfl, ?_⟩
    cases henc : encrypted with
    | true =>
      rw [henc, if_pos rfl] at h
      cases hw : write_at_offset (st.bufs st.head) bs st.dev (bs * block)
          (writeOracle st.head_block) with
      | none => rw [hw] at h; exact absurd h (by simp)
      | some dev2 =>
        rw [hw] at h
        simp only [Option.some_inj] at h
        subst h
        exact ⟨rfl, rfl, rfl, rfl, rfl, rfl, rfl, rfl, rfl, fun _ => rfl,
          fun hf => absurd hf (by decide)⟩
    | false =>
      rw [henc, if_neg (by decide)] at h
      simp only [Option.some_inj] at h
      subst h
      exact ⟨rfl, rfl, rfl, rfl, rfl, rfl, rfl, rfl, rfl,
        fun ht => absurd ht (by decide), fun _ => rfl⟩

/-- `flushHead` succeeds when the resolver answers and (if encrypted) the
write oracle delivers the block. -/
lemma flushHead_succeeds (bs : Nat) (resolver : Nat → Option Nat)
    (writeOracle : Nat → List Int) (encrypted : Bool) (st : PipeState)
    (block : Nat) (hres : resolver st.head_block = some block)
    (hwrite : encrypted = true → Delivers (writeOracle st.head_block) bs = true) :
    ∃ st', flushHead bs resolver writeOracle encrypted st = some st' := by
  unfold flushHead
  rw [hres]
  simp only
  cases henc : encrypted with
  | true =>
    obtain ⟨dev', hdev', _, _⟩ :=
      (write_at_offset_spec (st.bufs st.head) st.dev bs (bs * block)
        (writeOracle st.head_block)).1 (hwrite henc)
    rw [if_pos rfl, hdev']
    exact ⟨_, rfl⟩
  | false =>
    rw [if_neg (by simp)]
    exact ⟨_, rfl⟩

lemma block_offsets_disjoint (b1 b2 j bs : Nat) (hj : j < bs)
    (hne : b1 ≠ b2) : b1 * bs + j < b2 * bs ∨ b2 * bs + bs ≤ b1 * bs + j := by
  rcases Nat.lt_or_ge b1 b2 with h | h
  · left
    calc b1 * bs + j < b1 * bs + bs := by omega
    _ = (b1 + 1) * bs := by ring
    _ ≤ b2 * bs := Nat.mul_le_mul_right bs (by omega)
  · right
    have h2 : b2 < b1 := by omega
    calc b2 * bs + bs = (b2 + 1) * bs := by ring
    _ ≤ b1 * bs := Nat.mul_le_mul_right bs (by omega)
    _ ≤ b1 * bs + j := by omega

lemma window_size_eq : WINDOW_SIZE = 5 := rfl

/-- `flushHead` success preserves the cursor invariant and leaves the
admission side of the state untouched. -/
lemma flushHead_cursor (size bs : Nat) (resolver : Nat → Option Nat)
    (writeOracle : Nat → List Int) (encrypted : Bool) (st st' : PipeState)
    (h : flushHead bs resolver writeOracle encrypted st = some st')
    (hc : CursorInv size bs encrypted st)
    (hlt : st.head_block < st.admitted) :
    CursorInv size bs encrypted st' ∧ st'.head_block = st.head_block + 1 ∧
      st'.admitted = st.admitted ∧ st'.pos = st.pos ∧ st'.tail = st.tail ∧
      st'.bufs = st.bufs := by
  obtain ⟨block, hresb, hranges, hresolved, hhead, hhb, htail, hpos, hadm,
    hbufs, htrace, hdevT, hdevF⟩ :=
    flushHead_eq_some bs resolver writeOracle encrypted st st' h
  have hW := window_size_eq
  refine ⟨⟨?_, ?_, ?_, ?_, ?_, ?_, ?_⟩, hhb, hadm, hpos, htail, hbufs⟩
  · rw [hhead, hhb, hc.head_eq, hW]
    omega
  · rw [htail, hadm, hc.tail_eq]
  · rw [hhb, hadm]
    omega
  · rw [hhb, hadm]
    have := hc.adm_le
    omega
  · rw [hadm]
    exact hc.adm_leN
  · rw [hpos, hadm]
    exact hc.pos_eq
  · intro x hx
    rw [htrace] at hx
    rcases List.mem_append.mp hx with hx | hx
    · exact hc.trace_inv x hx
    · have hx2 : x = st.admitted - (st.head_block + 1) := by
        simpa using hx
      have := hc.adm_le
      rw [hW] at this ⊢
      omega

/-- `flushHead` success preserves the data invariant when the resolver agrees
with `f` at the flushed block and the write oracle delivers. -/
lemma flushHead_data (size bs : Nat) (fileData : Nat → Nat)
    (resolver : Nat → Option Nat) (writeOracle : Nat → List Int)
    (encrypted : Bool) (f : Nat → Nat) (st st' : PipeState)
    (h : flushHead bs resolver writeOracle encrypted st = some st')
    (hc : CursorInv size bs encrypted st)
    (hd : DataInv size bs fileData encrypted f st)
    (hres : resolver st.head_block = some (f st.head_block))
    (hlt : st.head_block < st.admitted)
    (hwrite : encrypted = true → Delivers (writeOracle st.head_block) bs = true) :
    DataInv size bs fileData encrypted f st' := by
  obtain ⟨block, hresb, hranges, hresolved, hhead, hhb, htail, hpos, hadm,
    hbufs, htrace, hdevT, hdevF⟩ :=
    flushHead_eq_some bs resolver writeOracle encrypted st st' h
  have hbf : block = f st.head_block := Option.some_inj.mp (hresb.symm.trans hres)
  subst hbf
  refine ⟨?_, ?_, ?_, ?_⟩
  · rw [hresolved, hd.resolved_eq, hhb, List.range_succ, List.map_append]
    simp
  · rw [hranges, hd.ranges_eq, hhb, List.range_succ, List.map_append]
    simp only [List.map_singleton]
    rw [coalesce_append_single]
  · intro henc i h1 h2 j hj hsz
    rw [hbufs]
    rw [hhb] at h1
    rw [hadm] at h2
    exact hd.bufs_inv henc i (by omega) h2 j hj hsz
  · intro henc hinj i hi j hj hsz
    obtain ⟨dev', hw', hbytes, hout⟩ :=
      (write_at_offset_spec (st.bufs st.head) st.dev bs
        (bs * f st.head_block) (writeOracle st.head_block)).1 (hwrite henc)
    have hdev : dev' = st'.dev := Option.some_inj.mp (hw'.symm.trans (hdevT henc))
    subst hdev
    rw [hhb] at hi
    rcases Nat.lt_or_ge i st.head_block with hilt | hieq
    · have hne : f i ≠ f st.head_block := fun he =>
        absurd (hinj _ _ he) (by omega)
      have hdisj := block_offsets_disjoint (f i) (f st.head_block) j bs hj hne
      have hcm : bs * f st.head_block = f st.head_block * bs := Nat.mul_comm _ _
      rw [hout (f i * bs + j) (by
        rcases hdisj with hd1 | hd1
        · left; omega
        · right; omega)]
      exact hd.dev_inv henc hinj i hilt j hj hsz
    · have hieq2 : i = st.head_block := by omega
      subst hieq2
      have hb1 := hbytes j hj
      have hcm2 : bs * f st.head_block + j = f st.head_block * bs + j := by
        rw [Nat.mul_comm]
      rw [hcm2] at hb1
      rw [hb1, hc.head_eq]
      exact hd.bufs_inv henc st.head_block (le_refl _) hlt j hj hsz

/-- Admission of a freshly read block preserves both invariants (encrypted
mode). -/
lemma admitRead_preserves (size bs : Nat) (fileData : Nat → Nat)
    (f : Nat → Nat) (st : PipeState)
    (hc : CursorInv size bs true st)
    (hd : DataInv size bs fileData true f st)
    (hbs : 0 < bs) (hpos : st.pos < size)
    (hroom : st.admitted ≤ st.head_block + (WINDOW_SIZE - 2)) :
    CursorInv size bs true
      (admitRead st
        (bufWrite (st.bufs st.tail) 0 fileData st.pos (min bs (size - st.pos)))
        (min (st.pos + bs) size)) ∧
    DataInv size bs fileData true f
      (admitRead st
        (bufWrite (st.bufs st.tail) 0 fileData st.pos (min bs (size - st.pos)))
        (min (st.pos + bs) size)) := by
  have hW := window_size_eq
  have hpos_eq : st.pos = min (st.admitted * bs) size := by
    have := hc.pos_eq
    simpa using this
  have hlt : st.admitted * bs < size := by omega
  have hposx : st.pos = st.admitted * bs := by omega
  have hadmN : st.admitted < blockCount size bs :=
    (lt_blockCount_iff size bs st.admitted hbs).mp hlt
  constructor
  · refine ⟨?_, ?_, ?_, ?_, ?_, ?_, ?_⟩
    · exact hc.head_eq
    · show (st.tail + 1) % WINDOW_SIZE = (st.admitted + 1) % WINDOW_SIZE
      rw [hc.tail_eq, hW]
      omega
    · show st.head_block ≤ st.admitted + 1
      have := hc.hb_le
      omega
    · show st.admitted + 1 ≤ st.head_block + (WINDOW_SIZE - 1)
      rw [hW] at hroom ⊢
      omega
    · show st.admitted + 1 ≤ blockCount size bs
      omega
    · show min (st.pos + bs) size =
        if true = true then min ((st.admitted + 1) * bs) size
          else (st.admitted + 1) * bs
      rw [if_pos rfl, hposx, Nat.succ_mul]
    · intro x hx
      rcases List.mem_append.mp hx with hx | hx
      · exact hc.trace_inv x hx
      · have hx2 : x = st.admitted + 1 - st.head_block := by simpa using hx
        rw [hW] at hroom ⊢
        omega
  · refine ⟨hd.resolved_eq, hd.ranges_eq, ?_, hd.dev_inv⟩
    intro _ i h1 h2 j hj hsz
    simp only [admitRead] at h1 h2 ⊢
    rcases Nat.lt_or_ge i st.admitted with hilt | hieq
    · have hne : i % WINDOW_SIZE ≠ st.tail := by
        rw [hc.tail_eq, hW]
        rw [hW] at hroom
        omega
      simp only [updateSlot]
      rw [if_neg hne]
      exact hd.bufs_inv rfl i h1 hilt j hj hsz
    · have hieq2 : i = st.admitted := by omega
      subst hieq2
      simp only [updateSlot]
      rw [if_pos (by rw [hc.tail_eq])]
      simp only [bufWrite]
      rw [if_pos (by omega)]
      congr 1
      omega

/-- Admission in the unencrypted mode preserves both invariants. -/
lemma admitSkip_preserves (size bs : Nat) (fileData : Nat → Nat)
    (f : Nat → Nat) (st : PipeState)
    (hc : CursorInv size bs false st)
    (hd : DataInv size bs fileData false f st)
    (hbs : 0 < bs) (hpos : st.pos < size)
    (hroom : st.admitted ≤ st.head_block + (WINDOW_SIZE - 2)) :
    CursorInv size bs false (admitSkip st bs) ∧
    DataInv size bs fileData false f (admitSkip st bs) := by
  have hW := window_size_eq
  have hposx : st.pos = st.admitted * bs := by
    have := hc.pos_eq
    simpa using this
  have hlt : st.admitted * bs < size := by omega
  have hadmN : st.admitted < blockCount size bs :=
    (lt_blockCount_iff size bs st.admitted hbs).mp hlt
  constructor
  · refine ⟨?_, ?_, ?_, ?_, ?_, ?_, ?_⟩
    · exact hc.head_eq
    · show (st.tail + 1) % WINDOW_SIZE = (st.admitted + 1) % WINDOW_SIZE
      rw [hc.tail_eq, hW]
      omega
    · show st.head_block ≤ st.admitted + 1
      have := hc.hb_le
      omega
    · show st.admitted + 1 ≤ st.head_block + (WINDOW_SIZE - 1)
      rw [hW] at hroom ⊢
      omega
    · show st.admitted + 1 ≤ blockCount size bs
      omega
    · show st.pos + bs =
        if false = true then min ((st.admitted + 1) * bs) size
          else (st.admitted + 1) * bs
      rw [if_neg (by decide), hposx, Nat.succ_mul]
    · intro x hx
      rcases List.mem_append.mp hx with hx | hx
      · exact hc.trace_inv x hx
      · have hx2 : x = st.admitted + 1 - st.head_block := by simpa using hx
        rw [hW] at hroom ⊢
        omega
  · refine ⟨hd.resolved_eq, hd.ranges_eq, ?_, hd.dev_inv⟩
    intro henc
    exact absurd henc (by decide)

lemma readLoop_exit (ok : Bool) (size bs : Nat) (fileData : Nat → Nat)
    (fuel : Nat) (buf : Nat → Nat) (so_far pos : Nat)
    (h : ¬ (so_far < bs ∧ pos < size)) :
    readLoop ok size bs fileData fuel buf so_far pos = some (buf, pos) := by
  cases fuel with
  | zero => simp [readLoop, h]
  | succ k => simp [readLoop, h]

/-- With a succeeding read, the inner read loop performs one `read(2)` of
`min bs (size - pos)` bytes and stops: the buffer receives that prefix and the
position advances to `min (pos + bs) size`. -/
lemma readLoop_true_eq (size bs : Nat) (fileData : Nat → Nat) (fuel : Nat)
    (buf : Nat → Nat) (pos : Nat) (hbs : 0 < bs) (hpos : pos < size)
    (hfuel : 1 ≤ fuel) :
    readLoop true size bs fileData fuel buf 0 pos =
      some (bufWrite buf 0 fileData pos (min bs (size - pos)),
        min (pos + bs) size) := by
  obtain ⟨k, rfl⟩ : ∃ k, fuel = k + 1 := ⟨fuel - 1, by omega⟩
  rw [readLoop]
  rw [if_pos ⟨hbs, hpos⟩, if_pos rfl]
  simp only [Nat.sub_zero, Nat.zero_add]
  rw [readLoop_exit _ _ _ _ _ _ _ _ (by omega)]
  have hp : pos + min bs (size - pos) = min (pos + bs) size := by omega
  rw [hp]

lemma readLoop_false_none (size bs : Nat) (fileData : Nat → Nat) (fuel : Nat)
    (buf : Nat → Nat) (pos : Nat) (hbs : 0 < bs) (hpos : pos < size)
    (hfuel : 1 ≤ fuel) :
    readLoop false size bs fileData fuel buf 0 pos = none := by
  obtain ⟨k, rfl⟩ : ∃ k, fuel = k + 1 := ⟨fuel - 1, by omega⟩
  rw [readLoop]
  rw [if_pos ⟨hbs, hpos⟩]
  simp

lemma adm_eq_blockCount_of_exit (size bs : Nat) (encrypted : Bool)
    (st : PipeState) (hc : CursorInv size bs encrypted st) (hbs : 0 < bs)
    (h : ¬ st.pos < size) : st.admitted = blockCount size bs := by
  have hp := hc.pos_eq
  have hle := hc.adm_leN
  have key : ¬ st.admitted * bs < size := by
    by_cases henc : encrypted = true
    · rw [if_pos henc] at hp
      omega
    · rw [if_neg henc] at hp
      omega
  rw [lt_blockCount_iff size bs _ hbs] at key
  omega

lemma adm_lt_blockCount_of_pos (size bs : Nat) (encrypted : Bool)
    (st : PipeState) (hc : CursorInv size bs encrypted st) (hbs : 0 < bs)
    (h : st.pos < size) : st.admitted < blockCount size bs := by
  have hp := hc.pos_eq
  rw [← lt_blockCount_iff size bs _ hbs]
  by_cases henc : encrypted = true
  · rw [if_pos henc] at hp
    omega
  · rw [if_neg henc] at hp
    omega

/-- Master success lemma for the main pipeline loop: from an invariant state,
with a resolver agreeing with `f`, reads succeeding and the write oracle
delivering on every block of the file, the loop completes, preserves both
invariants, and admits exactly `blockCount size bs` blocks. -/
lemma mainLoop_ok (size bs : Nat) (fileData : Nat → Nat)
    (resolver : Nat → Option Nat) (readOk : Nat → Bool)
    (writeOracle : Nat → List Int) (encrypted : Bool) (f : Nat → Nat)
    (hbs : 0 < bs)
    (hres : ∀ k, k < blockCount size bs → resolver k = some (f k))
    (hread : encrypted = true → ∀ k, k < blockCount size bs → readOk k = true)
    (hwrite : encrypted = true → ∀ k, k < blockCount size bs →
      Delivers (writeOracle k) bs = true) :
    ∀ (fuel : Nat) (st : PipeState),
      CursorInv size bs encrypted st →
      DataInv size bs fileData encrypted f st →
      blockCount size bs ≤ st.admitted + fuel →
      ∃ st', mainLoop size bs fileData resolver readOk writeOracle encrypted
          fuel st = (st', true) ∧
        CursorInv size bs encrypted st' ∧
        DataInv size bs fileData encrypted f st' ∧
        st'.admitted = blockCount size bs := by
  intro fuel
  induction fuel with
  | zero =>
    intro st hc hd hfuel
    have hnp : ¬ st.pos < size := by
      intro hlt
      have := adm_lt_blockCount_of_pos size bs encrypted st hc hbs hlt
      omega
    exact ⟨st, by simp [mainLoop, hnp],
      hc, hd, adm_eq_blockCount_of_exit size bs encrypted st hc hbs hnp⟩
  | succ fuel ih =>
    intro st hc hd hfuel
    by_cases hpos : st.pos < size
    case neg =>
      refine ⟨st, ?_, hc, hd,
        adm_eq_blockCount_of_exit size bs encrypted st hc hbs hpos⟩
      simp [mainLoop, hpos]
    case pos =>
      have hadmN := adm_lt_blockCount_of_pos size bs encrypted st hc hbs hpos
      have hW := window_size_eq
      -- stage 1: flush the head if the window is full
      have hstage1 : ∃ st1,
          (if (st.tail + 1) % WINDOW_SIZE = st.head
            then flushHead bs resolver writeOracle encrypted st
            else some st) = some st1 ∧
          CursorInv size bs encrypted st1 ∧
          DataInv size bs fileData encrypted f st1 ∧
          st1.admitted = st.admitted ∧ st1.pos = st.pos ∧
          st1.admitted ≤ st1.head_block + 3 := by
        by_cases hcond : (st.tail + 1) % WINDOW_SIZE = st.head
        · have hfull : st.admitted = st.head_block + 4 := by
            have h1 := hc.tail_eq
            have h2 := hc.head_eq
            have h3 := hc.hb_le
            have h4 := hc.adm_le
            rw [h1, h2, hW] at hcond
            rw [hW] at h4
            omega
          have hlt : st.head_block < st.admitted := by omega
          have hhbN : st.head_block < blockCount size bs := by
            have := hc.hb_le
            omega
          obtain ⟨st1, hfl⟩ := flushHead_succeeds bs resolver writeOracle
            encrypted st (f st.head_block) (hres _ hhbN)
            (fun henc => hwrite henc _ hhbN)
          obtain ⟨hc1, hhb1, hadm1, hpos1, _, _⟩ := flushHead_cursor size bs
            resolver writeOracle encrypted st st1 hfl hc hlt
          have hd1 := flushHead_data size bs fileData resolver writeOracle
            encrypted f st st1 hfl hc hd (hres _ hhbN) hlt
            (fun henc => hwrite henc _ hhbN)
          exact ⟨st1, by rw [if_pos hcond, hfl], hc1, hd1, hadm1, hpos1,
            by omega⟩
        · refine ⟨st, by rw [if_neg hcond], hc, hd, rfl, rfl, ?_⟩
          have h4 := hc.adm_le
          rw [hW] at h4
          by_contra hgt
          apply hcond
          rw [hc.tail_eq, hc.head_eq, hW]
          omega
      obtain ⟨st1, hst1, hc1, hd1, hadm1, hpos1, hroom1⟩ := hstage1
      have hpos1' : st1.pos < size := by rw [hpos1]; exact hpos
      have hroom1' : st1.admitted ≤ st1.head_block + (WINDOW_SIZE - 2) := by
        rw [hW]
        omega
      by_cases henc : encrypted = true
      · -- encrypted admission: read a block into the tail slot
        have hrok : readOk st1.admitted = true := by
          rw [hadm1]
          exact hread henc _ hadmN
        have hrl := readLoop_true_eq size bs fileData bs (st1.bufs st1.tail)
          st1.pos hbs hpos1' (by omega)
        rw [henc] at hc1 hd1
        obtain ⟨hc2, hd2⟩ := admitRead_preserves size bs fileData f st1 hc1
          hd1 hbs hpos1' hroom1'
        rw [← henc] at hc2 hd2
        obtain ⟨st', hml', hc', hd', hadm'⟩ := ih
          (admitRead st1
            (bufWrite (st1.bufs st1.tail) 0 fileData st1.pos
              (min bs (size - st1.pos)))
            (min (st1.pos + bs) size))
          hc2 hd2 (by simp only [admitRead]; omega)
        refine ⟨st', ?_, hc', hd', hadm'⟩
        rw [henc] at hst1
        simp only [mainLoop, if_pos hpos, hst1, henc, eq_self_iff_true,
          if_true, hrok, hrl]
        rw [henc] at hml'
        exact hml'
      · have hencF : encrypted = false := by
          cases encrypted
          · rfl
          · exact absurd rfl henc
        rw [hencF] at hc1 hd1
        obtain ⟨hc2, hd2⟩ := admitSkip_preserves size bs fileData f st1 hc1
          hd1 hbs hpos1' hroom1'
        rw [← hencF] at hc2 hd2
        obtain ⟨st', hml', hc', hd', hadm'⟩ := ih (admitSkip st1 bs) hc2 hd2
          (by simp only [admitSkip]; omega)
        refine ⟨st', ?_, hc', hd', hadm'⟩
        rw [hencF] at hst1
        simp only [mainLoop, if_pos hpos, hst1, hencF, Bool.false_eq_true,
          if_false]
        rw [hencF] at hml'
        exact hml'

/-- Master success lemma for the drain loop. -/
lemma drainLoop_ok (size bs : Nat) (fileData : Nat → Nat)
    (resolver : Nat → Option Nat) (writeOracle : Nat → List Int)
    (encrypted : Bool) (f : Nat → Nat)
    (hres : ∀ k, k < blockCount size bs → resolver k = some (f k))
    (hwrite : encrypted = true → ∀ k, k < blockCount size bs →
      Delivers (writeOracle k) bs = true) :
    ∀ (fuel : Nat) (st : PipeState),
      CursorInv size bs encrypted st →
      DataInv size bs fileData encrypted f st →
      st.admitted ≤ st.head_block + fuel →
      ∃ st', drainLoop bs resolver writeOracle encrypted fuel st
          = (st', true) ∧
        CursorInv size bs encrypted st' ∧
        DataInv size bs fileData encrypted f st' ∧
        st'.head_block = st.admitted ∧ st'.admitted = st.admitted := by
  intro fuel
  induction fuel with
  | zero =>
    intro st hc hd hfuel
    have heq : st.head_block = st.admitted := by
      have := hc.hb_le
      omega
    have hht : ¬ st.head ≠ st.tail := by
      rw [hc.head_eq, hc.tail_eq, heq]
      simp
    exact ⟨st, by simp [drainLoop, hht], hc, hd, heq, rfl⟩
  | succ fuel ih =>
    intro st hc hd hfuel
    by_cases hht : st.head ≠ st.tail
    · have hlt : st.head_block < st.admitted := by
        have h1 := hc.hb_le
        rcases Nat.lt_or_ge st.head_block st.admitted with h | h
        · exact h
        · exfalso
          apply hht
          rw [hc.head_eq, hc.tail_eq]
          have heq2 : st.head_block = st.admitted := by omega
          rw [heq2]
      have hhbN : st.head_block < blockCount size bs := by
        have := hc.adm_leN
        omega
      obtain ⟨st1, hfl⟩ := flushHead_succeeds bs resolver writeOracle
        encrypted st (f st.head_block) (hres _ hhbN)
        (fun henc => hwrite henc _ hhbN)
      obtain ⟨hc1, hhb1, hadm1, _, _, _⟩ := flushHead_cursor size bs
        resolver writeOracle encrypted st st1 hfl hc hlt
      have hd1 := flushHead_data size bs fileData resolver writeOracle
        encrypted f st st1 hfl hc hd (hres _ hhbN) hlt
        (fun henc => hwrite henc _ hhbN)
      obtain ⟨st', hdl', hc', hd', hhb', hadm'⟩ := ih st1 hc1 hd1 (by omega)
      refine ⟨st', ?_, hc', hd', by omega, by omega⟩
      simp only [drainLoop, if_pos hht, hfl]
      exact hdl'
    · have heq : st.head_block = st.admitted := by
        simp only [ne_eq, not_not] at hht
        rw [hc.head_eq, hc.tail_eq] at hht
        have h1 := hc.hb_le
        have h2 := hc.adm_le
        rw [window_size_eq] at *
        omega
      exact ⟨st, by simp [drainLoop, hht], hc, hd, heq, rfl⟩

lemma delivers_full (bs : Nat) : Delivers [(bs : Int)] bs = true := by
  cases bs with
  | zero => rfl
  | succ r =>
    show Delivers [((r + 1 : Nat) : Int)] (r + 1) = true
    rw [Delivers]
    rw [if_neg (by omega), if_neg (by omega)]
    have h : (r + 1 : Nat) - ((r + 1 : Nat) : Int).toNat = 0 := by omega
    rw [h]
    rfl

lemma initState_cursorInv (size bs : Nat) (encrypted : Bool)
    (dev0 : Nat → Nat) : CursorInv size bs encrypted (initState dev0) := by
  refine ⟨rfl, rfl, le_refl 0, by simp [initState, window_size_eq],
    Nat.zero_le _, ?_, by simp [initState]⟩
  show (0 : Nat) = if encrypted = true then min (0 * bs) size else 0 * bs
  cases encrypted <;> simp

lemma initState_dataInv (size bs : Nat) (fileData : Nat → Nat)
    (encrypted : Bool) (f : Nat → Nat) (dev0 : Nat → Nat) :
    DataInv size bs fileData encrypted f (initState dev0) := by
  refine ⟨by simp [initState], rfl, ?_, ?_⟩
  · intro _ i h1 h2 j hj hsz
    simp only [initState] at h2
    exact absurd h2 (by omega)
  · intro _ _ i hi j hj hsz
    simp only [initState] at hi
    exact absurd hi (by omega)

/-- Master success characterization of `produce_block_map` when stat/open
succeed, the resolver agrees with `f` everywhere it is consulted, reads
succeed and the write oracle delivers each block. -/
lemma produce_spec (blk_dev : String) (size bs : Nat)
    (dev0 fileData : Nat → Nat) (resolver : Nat → Option Nat)
    (readOk : Nat → Bool) (writeOracle : Nat → List Int) (encrypted : Bool)
    (f : Nat → Nat) (hbs : 0 < bs)
    (hres : ∀ k, k < blockCount size bs → resolver k = some (f k))
    (hread : encrypted = true → ∀ k, k < blockCount size bs → readOk k = true)
    (hwrite : encrypted = true → ∀ k, k < blockCount size bs →
      Delivers (writeOracle k) bs = true) :
    (produce_block_map true true true blk_dev size bs dev0 fileData resolver
        readOk writeOracle encrypted).ok = true ∧
    (produce_block_map true true true blk_dev size bs dev0 fileData resolver
        readOk writeOracle encrypted).resolved =
      (List.range (blockCount size bs)).map f ∧
    (produce_block_map true true true blk_dev size bs dev0 fileData resolver
        readOk writeOracle encrypted).ranges =
      (coalesce ((List.range (blockCount size bs)).map
        (fun (k : Nat) => ((f k : Nat) : Int)))).reverse ∧
    (produce_block_map true true true blk_dev size bs dev0 fileData resolver
        readOk writeOracle encrypted).mapOut =
      blk_dev ++ "\n" ++ toString size ++ " " ++ toString bs ++ "\n" ++
        toString (produce_block_map true true true blk_dev size bs dev0
          fileData resolver readOk writeOracle encrypted).ranges.length ++
        "\n" ++ serializeRanges (produce_block_map true true true blk_dev
          size bs dev0 fileData resolver readOk writeOracle
          encrypted).ranges ∧
    (encrypted = true → (∀ a b, f a = f b → a = b) →
      ∀ i j, i < blockCount size bs → j < bs → i * bs + j < size →
        (produce_block_map true true true blk_dev size bs dev0 fileData
          resolver readOk writeOracle encrypted).dev (f i * bs + j) =
          fileData (i * bs + j)) := by
  obtain ⟨st', hml, hc', hd', hadm'⟩ := mainLoop_ok size bs fileData resolver
    readOk writeOracle encrypted f hbs hres hread hwrite (size + 1)
    (initState dev0) (initState_cursorInv size bs encrypted dev0)
    (initState_dataInv size bs fileData encrypted f dev0)
    (by have := blockCount_le size bs hbs; simp [initState]; omega)
  obtain ⟨st2, hdl, hc2, hd2, hhb2, hadm2⟩ := drainLoop_ok size bs fileData
    resolver writeOracle encrypted f hres hwrite WINDOW_SIZE st' hc' hd'
    (by have := hc'.adm_le; omega)
  have hout : produce_block_map true true true blk_dev size bs dev0 fileData
      resolver readOk writeOracle encrypted =
      { ok := true,
        mapOut := (blk_dev ++ "\n" ++ toString size ++ " " ++ toString bs
          ++ "\n") ++ toString st2.ranges.reverse.length ++ "\n" ++
          serializeRanges st2.ranges.reverse,
        dev := st2.dev, leaked := [], ranges := st2.ranges.reverse,
        resolved := st2.resolved, trace := st2.trace } := by
    simp only [produce_block_map, if_neg (show ¬ (true = false) by decide),
      if_neg (show ¬ (encrypted = true ∧ true = false) by simp), hml, hdl]
  have hhbN : st2.head_block = blockCount size bs := by omega
  refine ⟨by rw [hout], ?_, ?_, ?_, ?_⟩
  · rw [hout]
    show st2.resolved = _
    rw [hd2.resolved_eq, hhbN]
  · rw [hout]
    show st2.ranges.reverse = _
    rw [hd2.ranges_eq, hhbN]
  · rw [hout]
  · intro henc hinj i j hi hj hsz
    rw [hout]
    show st2.dev (f i * bs + j) = fileData (i * bs + j)
    exact hd2.dev_inv henc hinj i (by omega) j hj hsz

lemma str_append_assoc (a b c : String) : a ++ b ++ c = a ++ (b ++ c) := by
  cases a with
  | mk la =>
    cases b with
    | mk lb =>
      cases c with
      | mk lc =>
        show String.mk ((la ++ lb) ++ lc) = String.mk (la ++ (lb ++ lc))
        rw [List.append_assoc]

/-- C4: the example scenario — file size `49652`, block size `4096` (13
logical blocks), resolver yielding `1000..1007, 2100, 2101, 30, 31, 32` —
succeeds and serializes exactly the device path line, the line `49652 4096`,
the line `3`, and the three range lines `1000 1008`, `2100 2102`, `30 33`,
each newline-terminated, in that order and nothing else. -/
theorem produce_block_map_example_scenario (blk_dev : String) :
    (produce_block_map true true true blk_dev 49652 4096
      (fun _ => 0) (fun _ => 0)
      (fun k => some ([1000, 1001, 1002, 1003, 1004, 1005, 1006, 1007,
        2100, 2101, 30, 31, 32].getD k 0))
      (fun _ => true) (fun _ => [(4096 : Int)]) false).ok = true ∧
    (produce_block_map true true true blk_dev 49652 4096
      (fun _ => 0) (fun _ => 0)
      (fun k => some ([1000, 1001, 1002, 1003, 1004, 1005, 1006, 1007,
        2100, 2101, 30, 31, 32].getD k 0))
      (fun _ => true) (fun _ => [(4096 : Int)]) false).mapOut =
    blk_dev ++ "\n49652 4096\n3\n1000 1008\n2100 2102\n30 33\n" := by
  obtain ⟨hok, _, hrge, hmap, _⟩ := produce_spec blk_dev 49652 4096
    (fun _ => 0) (fun _ => 0)
    (fun k => some ([1000, 1001, 1002, 1003, 1004, 1005, 1006, 1007,
      2100, 2101, 30, 31, 32].getD k 0))
    (fun _ => true) (fun _ => [(4096 : Int)]) false
    (fun k => [1000, 1001, 1002, 1003, 1004, 1005, 1006, 1007,
      2100, 2101, 30, 31, 32].getD k 0)
    (by decide) (fun k _ => rfl) (fun hx => absurd hx (by decide))
    (fun hx => absurd hx (by decide))
  have hranges : (produce_block_map true true true blk_dev 49652 4096
      (fun _ => 0) (fun _ => 0)
      (fun k => some ([1000, 1001, 1002, 1003, 1004, 1005, 1006, 1007,
        2100, 2101, 30, 31, 32].getD k 0))
      (fun _ => true) (fun _ => [(4096 : Int)]) false).ranges =
      [(1000, 1008), (2100, 2102), (30, 33)] := by
    rw [hrge]
    decide
  refine ⟨hok, ?_⟩
  rw [hmap, hranges]
  simp only [str_append_assoc]
  congr 1

lemma blockCount_pos (size bs : Nat) (hbs : 0 < bs) (hsz : 0 < size) :
    0 < blockCount size bs := by
  rw [← lt_blockCount_iff size bs 0 hbs]
  simpa using hsz

lemma range_map_ne_nil (N : Nat) (g : Nat → Int) (hN : 0 < N) :
    (List.range N).map g ≠ [] := by
  intro hcon
  have hlen : ((List.range N).map g).length = N := by simp
  rw [hcon] at hlen
  simp at hlen
  omega

lemma range_map_nonneg (N : Nat) (f : Nat → Nat) :
    ∀ x ∈ (List.range N).map (fun (k : Nat) => ((f k : Nat) : Int)), 0 ≤ x := by
  intro x hx
  simp only [List.mem_map] at hx
  obtain ⟨a, _, rfl⟩ := hx
  exact Int.natCast_nonneg _

/-- C1: for every file with at least one logical block and every resolver
mapping `f`, a successful block-map pass resolves exactly the blocks
`f 0, ..., f (N-1)`, each exactly once and in that order (the ghost
`resolved` trace), and the finalized range list, expanded in list order,
equals exactly that sequence — no block dropped, duplicated or reordered. -/
theorem produce_block_map_resolves_in_order (blk_dev : String)
    (size bs : Nat) (dev0 fileData : Nat → Nat) (f : Nat → Nat)
    (encrypted : Bool) (hbs : 0 < bs) (hsz : 0 < size) :
    (produce_block_map true true true blk_dev size bs dev0 fileData
        (fun k => some (f k)) (fun _ => true) (fun _ => [(bs : Int)])
        encrypted).ok = true ∧
    (produce_block_map true true true blk_dev size bs dev0 fileData
        (fun k => some (f k)) (fun _ => true) (fun _ => [(bs : Int)])
        encrypted).resolved = (List.range (blockCount size bs)).map f ∧
    expandRanges (produce_block_map true true true blk_dev size bs dev0
        fileData (fun k => some (f k)) (fun _ => true)
        (fun _ => [(bs : Int)]) encrypted).ranges =
      (List.range (blockCount size bs)).map
        (fun (k : Nat) => ((f k : Nat) : Int)) := by
  obtain ⟨hok, hresv, hrge, hmap, hdev⟩ := produce_spec blk_dev size bs dev0
    fileData (fun k => some (f k)) (fun _ => true) (fun _ => [(bs : Int)])
    encrypted f hbs (fun k _ => rfl) (fun _ k _ => rfl)
    (fun _ k _ => delivers_full bs)
  have hl := range_map_ne_nil (blockCount size bs)
    (fun (k : Nat) => ((f k : Nat) : Int)) (blockCount_pos size bs hbs hsz)
  obtain ⟨s, rest, t, _, _, _, _, hexp, _, _⟩ :=
    coalesce_spec _ hl (range_map_nonneg (blockCount size bs) f)
  exact ⟨hok, hresv, by rw [hrge]; exact hexp⟩

/-- Witness for C1: a two-block file with the identity mapping. -/
theorem produce_block_map_resolves_in_order_witness :
    (produce_block_map true true true "d" 2 1 (fun _ => 0) (fun _ => 0)
        (fun k => some k) (fun _ => true) (fun _ => [(1 : Int)])
        false).ok = true ∧
    (produce_block_map true true true "d" 2 1 (fun _ => 0) (fun _ => 0)
        (fun k => some k) (fun _ => true) (fun _ => [(1 : Int)])
        false).resolved = (List.range (blockCount 2 1)).map (fun k => k) ∧
    expandRanges (produce_block_map true true true "d" 2 1 (fun _ => 0)
        (fun _ => 0) (fun k => some k) (fun _ => true)
        (fun _ => [(1 : Int)]) false).ranges =
      (List.range (blockCount 2 1)).map (fun (k : Nat) => ((k : Nat) : Int)) :=
  produce_block_map_resolves_in_order "d" 2 1 (fun _ => 0) (fun _ => 0)
    (fun k => k) false (by decide) (by decide)

/-- C10: two runs that differ only in the encrypted/shadow-write flag
serialize identical block-map artifacts; the flag never affects the resolved
range list or the serialized output. -/
theorem produce_block_map_flag_independent (blk_dev : String)
    (size bs : Nat) (dev0 fileData : Nat → Nat) (f : Nat → Nat)
    (hbs : 0 < bs) :
    (produce_block_map true true true blk_dev size bs dev0 fileData
        (fun k => some (f k)) (fun _ => true) (fun _ => [(bs : Int)])
        true).ok = true ∧
    (produce_block_map true true true blk_dev size bs dev0 fileData
        (fun k => some (f k)) (fun _ => true) (fun _ => [(bs : Int)])
        false).ok = true ∧
    (produce_block_map true true true blk_dev size bs dev0 fileData
        (fun k => some (f k)) (fun _ => true) (fun _ => [(bs : Int)])
        true).mapOut =
      (produce_block_map true true true blk_dev size bs dev0 fileData
        (fun k => some (f k)) (fun _ => true) (fun _ => [(bs : Int)])
        false).mapOut := by
  obtain ⟨hokT, _, hrgeT, hmapT, _⟩ := produce_spec blk_dev size bs dev0
    fileData (fun k => some (f k)) (fun _ => true) (fun _ => [(bs : Int)])
    true f hbs (fun k _ => rfl) (fun _ k _ => rfl)
    (fun _ k _ => delivers_full bs)
  obtain ⟨hokF, _, hrgeF, hmapF, _⟩ := produce_spec blk_dev size bs dev0
    fileData (fun k => some (f k)) (fun _ => true) (fun _ => [(bs : Int)])
    false f hbs (fun k _ => rfl) (fun _ k _ => rfl)
    (fun _ k _ => delivers_full bs)
  refine ⟨hokT, hokF, ?_⟩
  rw [hmapT, hmapF, hrgeT, hrgeF]

/-- Witness for C10 at a concrete three-block file. -/
theorem produce_block_map_flag_independent_witness :
    (produce_block_map true true true "d" 3 1 (fun _ => 0) (fun p => p + 7)
        (fun k => some (10 + k)) (fun _ => true) (fun _ => [(1 : Int)])
        true).ok = true ∧
    (produce_block_map true true true "d" 3 1 (fun _ => 0) (fun p => p + 7)
        (fun k => some (10 + k)) (fun _ => true) (fun _ => [(1 : Int)])
        false).ok = true ∧
    (produce_block_map true true true "d" 3 1 (fun _ => 0) (fun p => p + 7)
        (fun k => some (10 + k)) (fun _ => true) (fun _ => [(1 : Int)])
        true).mapOut =
      (produce_block_map true true true "d" 3 1 (fun _ => 0) (fun p => p + 7)
        (fun k => some (10 + k)) (fun _ => true) (fun _ => [(1 : Int)])
        false).mapOut :=
  produce_block_map_flag_independent "d" 3 1 (fun _ => 0) (fun p => p + 7)
    (fun k => 10 + k) (by decide)

lemma range_map_getD (N k : Nat) (g : Nat → Int) (hk : k < N) :
    ((List.range N).map g).getD k 0 = g k := by
  rw [List.getD_eq_getElem?_getD, List.getElem?_map, List.getElem?_range hk]
  rfl

/-- C2 (amended: the resolver mapping must be injective — distinct logical
blocks on a real filesystem occupy distinct physical blocks): with
shadow-write enabled, each flushed block's bytes are written at byte offset
`physical_block * block_size`, and reading the device back through the
serialized ranges reproduces the file byte-for-byte over the full file
size. -/
theorem shadow_write_roundtrip (blk_dev : String) (size bs : Nat)
    (dev0 fileData : Nat → Nat) (f : Nat → Nat) (hbs : 0 < bs)
    (hinj : ∀ a b, f a = f b → a = b) :
    (produce_block_map true true true blk_dev size bs dev0 fileData
        (fun k => some (f k)) (fun _ => true) (fun _ => [(bs : Int)])
        true).ok = true ∧
    (∀ i j, i < blockCount size bs → j < bs → i * bs + j < size →
      (produce_block_map true true true blk_dev size bs dev0 fileData
        (fun k => some (f k)) (fun _ => true) (fun _ => [(bs : Int)])
        true).dev (f i * bs + j) = fileData (i * bs + j)) ∧
    readBack
      (produce_block_map true true true blk_dev size bs dev0 fileData
        (fun k => some (f k)) (fun _ => true) (fun _ => [(bs : Int)])
        true).dev
      (expandRanges (produce_block_map true true true blk_dev size bs dev0
        fileData (fun k => some (f k)) (fun _ => true)
        (fun _ => [(bs : Int)]) true).ranges)
      bs size = (List.range size).map fileData := by
  obtain ⟨hok, hresv, hrge, hmap, hdev⟩ := produce_spec blk_dev size bs dev0
    fileData (fun k => some (f k)) (fun _ => true) (fun _ => [(bs : Int)])
    true f hbs (fun k _ => rfl) (fun _ k _ => rfl)
    (fun _ k _ => delivers_full bs)
  have hdev' := hdev rfl hinj
  refine ⟨hok, hdev', ?_⟩
  rcases Nat.eq_zero_or_pos size with rfl | hsz
  · rfl
  · have hl := range_map_ne_nil (blockCount size bs)
      (fun (k : Nat) => ((f k : Nat) : Int)) (blockCount_pos size bs hbs hsz)
    obtain ⟨s, rest, t, _, _, _, _, hexp, _, _⟩ :=
      coalesce_spec _ hl (range_map_nonneg (blockCount size bs) f)
    rw [readBack, hrge, hexp]
    apply List.map_congr_left
    intro p hp
    rw [List.mem_range] at hp
    have hsle : size ≤ blockCount size bs * bs := by
      have h1 := lt_blockCount_iff size bs (blockCount size bs) hbs
      omega
    have hdivN : p / bs < blockCount size bs := by
      rw [Nat.div_lt_iff_lt_mul hbs]
      omega
    rw [range_map_getD (blockCount size bs) (p / bs) _ hdivN]
    have htn : ((f (p / bs) : Nat) : Int).toNat = f (p / bs) := by
      simp
    rw [htn]
    have hmod : p % bs < bs := Nat.mod_lt p hbs
    have hpe : p / bs * bs + p % bs = p := Nat.div_add_mod' p bs
    rw [show f (p / bs) * bs + p % bs = f (p / bs) * bs + p % bs from rfl]
    have := hdev' (p / bs) (p % bs) hdivN hmod (by omega)
    rw [this, hpe]

/-- Witness for C2 (amended) at a two-block file with an injective mapping. -/
theorem shadow_write_roundtrip_witness :
    (produce_block_map true true true "d" 2 1 (fun _ => 0) (fun p => p + 1)
        (fun k => some k) (fun _ => true) (fun _ => [(1 : Int)])
        true).ok = true ∧
    (∀ i j, i < blockCount 2 1 → j < 1 → i * 1 + j < 2 →
      (produce_block_map true true true "d" 2 1 (fun _ => 0) (fun p => p + 1)
        (fun k => some k) (fun _ => true) (fun _ => [(1 : Int)])
        true).dev (i * 1 + j) = (fun p => p + 1) (i * 1 + j)) ∧
    readBack
      (produce_block_map true true true "d" 2 1 (fun _ => 0) (fun p => p + 1)
        (fun k => some k) (fun _ => true) (fun _ => [(1 : Int)])
        true).dev
      (expandRanges (produce_block_map true true true "d" 2 1 (fun _ => 0)
        (fun p => p + 1) (fun k => some k) (fun _ => true)
        (fun _ => [(1 : Int)]) true).ranges)
      1 2 = (List.range 2).map (fun p => p + 1) :=
  shadow_write_roundtrip "d" 2 1 (fun _ => 0) (fun p => p + 1) (fun k => k)
    (by decide) (fun a b h => h)

/-! ## Window boundedness for arbitrary runs -/

/-- Cursor invariant is preserved by an encrypted admission whatever buffer
contents the read produced. -/
lemma admitRead_cursor (size bs : Nat) (st : PipeState) (buf : Nat → Nat)
    (hc : CursorInv size bs true st) (hbs : 0 < bs) (hpos : st.pos < size)
    (hroom : st.admitted ≤ st.head_block + 3) :
    CursorInv size bs true (admitRead st buf (min (st.pos + bs) size)) := by
  have hW := window_size_eq
  have hpos_eq : st.pos = min (st.admitted * bs) size := by
    have := hc.pos_eq
    simpa using this
  have hlt : st.admitted * bs < size := by omega
  have hposx : st.pos = st.admitted * bs := by omega
  have hadmN : st.admitted < blockCount size bs :=
    (lt_blockCount_iff size bs st.admitted hbs).mp hlt
  refine ⟨hc.head_eq, ?_, ?_, ?_, ?_, ?_, ?_⟩
  · show (st.tail + 1) % WINDOW_SIZE = (st.admitted + 1) % WINDOW_SIZE
    rw [hc.tail_eq, hW]
    omega
  · show st.head_block ≤ st.admitted + 1
    have := hc.hb_le
    omega
  · show st.admitted + 1 ≤ st.head_block + (WINDOW_SIZE - 1)
    rw [hW]
    omega
  · show st.admitted + 1 ≤ blockCount size bs
    omega
  · show min (st.pos + bs) size =
      if true = true then min ((st.admitted + 1) * bs) size
        else (st.admitted + 1) * bs
    rw [if_pos rfl, hposx, Nat.succ_mul]
  · intro x hx
    rcases List.mem_append.mp hx with hx | hx
    · exact hc.trace_inv x hx
    · have hx2 : x = st.admitted + 1 - st.head_block := by simpa using hx
      rw [hW]
      omega

/-- Cursor invariant is preserved by an unencrypted admission. -/
lemma admitSkip_cursor (size bs : Nat) (st : PipeState)
    (hc : CursorInv size bs false st) (hbs : 0 < bs) (hpos : st.pos < size)
    (hroom : st.admitted ≤ st.head_block + 3) :
    CursorInv size bs false (admitSkip st bs) := by
  have hW := window_size_eq
  have hposx : st.pos = st.admitted * bs := by
    have := hc.pos_eq
    simpa using this
  have hlt : st.admitted * bs < size := by omega
  have hadmN : st.admitted < blockCount size bs :=
    (lt_blockCount_iff size bs st.admitted hbs).mp hlt
  refine ⟨hc.head_eq, ?_, ?_, ?_, ?_, ?_, ?_⟩
  · show (st.tail + 1) % WINDOW_SIZE = (st.admitted + 1) % WINDOW_SIZE
    rw [hc.tail_eq, hW]
    omega
  · show st.head_block ≤ st.admitted + 1
    have := hc.hb_le
    omega
  · show st.admitted + 1 ≤ st.head_block + (WINDOW_SIZE - 1)
    rw [hW]
    omega
  · show st.admitted + 1 ≤ blockCount size bs
    omega
  · show st.pos + bs =
      if false = true then min ((st.admitted + 1) * bs) size
        else (st.admitted + 1) * bs
    rw [if_neg (by decide), hposx, Nat.succ_mul]
  · intro x hx
    rcases List.mem_append.mp hx with hx | hx
    · exact hc.trace_inv x hx
    · have hx2 : x = st.admitted + 1 - st.head_block := by simpa using hx
      rw [hW]
      omega

/-- In a state whose window is full, the window holds exactly
`WINDOW_SIZE - 1` unflushed blocks. -/
lemma full_window_adm (size bs : Nat) (encrypted : Bool) (st : PipeState)
    (hc : CursorInv size bs encrypted st)
    (hcond : (st.tail + 1) % WINDOW_SIZE = st.head) :
    st.admitted = st.head_block + 4 := by
  have h1 := hc.tail_eq
  have h2 := hc.head_eq
  have h3 := hc.hb_le
  have h4 := hc.adm_le
  rw [h1, h2, window_size_eq] at hcond
  rw [window_size_eq] at h4
  omega

/-- The cursor invariant holds at the state the main loop returns, whatever
the oracles did. -/
lemma mainLoop_cursor_any (size bs : Nat) (fileData : Nat → Nat)
    (resolver : Nat → Option Nat) (readOk : Nat → Bool)
    (writeOracle : Nat → List Int) (encrypted : Bool) (hbs : 0 < bs) :
    ∀ (fuel : Nat) (st : PipeState), CursorInv size bs encrypted st →
      CursorInv size bs encrypted
        (mainLoop size bs fileData resolver readOk writeOracle encrypted
          fuel st).1 := by
  intro fuel
  induction fuel with
  | zero =>
    intro st hc
    by_cases h : st.pos < size <;> simp [mainLoop, h] <;> exact hc
  | succ fuel ih =>
    intro st hc
    by_cases hpos : st.pos < size
    case neg =>
      simp only [mainLoop, if_neg hpos]
      exact hc
    case pos =>
      have hstage1 : ∃ st1,
          ((if (st.tail + 1) % WINDOW_SIZE = st.head
            then flushHead bs resolver writeOracle encrypted st
            else some st) = some st1 ∧
          CursorInv size bs encrypted st1 ∧
          st1.admitted = st.admitted ∧ st1.pos = st.pos ∧
          st1.admitted ≤ st1.head_block + 3) ∨
          ((if (st.tail + 1) % WINDOW_SIZE = st.head
            then flushHead bs resolver writeOracle encrypted st
            else some st) = none) := by
        by_cases hcond : (st.tail + 1) % WINDOW_SIZE = st.head
        · cases hfl : flushHead bs resolver writeOracle encrypted st with
          | none => exact ⟨st, Or.inr (by rw [if_pos hcond])⟩
          | some st1 =>
            have hfull := full_window_adm size bs encrypted st hc hcond
            have hlt : st.head_block < st.admitted := by omega
            obtain ⟨hc1, hhb1, hadm1, hpos1, _, _⟩ := flushHead_cursor size bs
              resolver writeOracle encrypted st st1 hfl hc hlt
            exact ⟨st1, Or.inl ⟨by rw [if_pos hcond], hc1, hadm1, hpos1,
              by omega⟩⟩
        · refine ⟨st, Or.inl ⟨by rw [if_neg hcond], hc, rfl, rfl, ?_⟩⟩
          have h4 := hc.adm_le
          rw [window_size_eq] at h4
          by_contra hgt
          apply hcond
          rw [hc.tail_eq, hc.head_eq, window_size_eq]
          omega
      obtain ⟨st1, hst1 | hst1⟩ := hstage1
      · obtain ⟨hfl1, hc1, hadm1, hpos1, hroom1⟩ := hst1
        have hpos1' : st1.pos < size := by rw [hpos1]; exact hpos
        by_cases henc : encrypted = true
        · cases hrok : readOk st1.admitted with
          | false =>
            have hrl := readLoop_false_none size bs fileData bs
              (st1.bufs st1.tail) st1.pos hbs hpos1' (by omega)
            rw [henc] at hfl1 hc1 ⊢
            simp only [mainLoop, if_pos hpos, hfl1, eq_self_iff_true, if_true,
              hrok, hrl]
            exact hc1
          | true =>
            have hrl := readLoop_true_eq size bs fileData bs
              (st1.bufs st1.tail) st1.pos hbs hpos1' (by omega)
            rw [henc] at hfl1 hc1
            have hc2 := admitRead_cursor size bs st1
              (bufWrite (st1.bufs st1.tail) 0 fileData st1.pos
                (min bs (size - st1.pos))) hc1 hbs hpos1' hroom1
            rw [← henc] at hc2
            have hrec := ih (admitRead st1
              (bufWrite (st1.bufs st1.tail) 0 fileData st1.pos
                (min bs (size - st1.pos)))
              (min (st1.pos + bs) size)) hc2
            rw [henc] at hrec ⊢
            simp only [mainLoop, if_pos hpos, hfl1, eq_self_iff_true, if_true,
              hrok, hrl]
            exact hrec
        · have hencF : encrypted = false := by
            cases encrypted
            · rfl
            · exact absurd rfl henc
          rw [hencF] at hfl1 hc1
          have hc2 := admitSkip_cursor size bs st1 hc1 hbs hpos1' hroom1
          rw [← hencF] at hc2
          have hrec := ih (admitSkip st1 bs) hc2
          rw [hencF] at hrec ⊢
          simp only [mainLoop, if_pos hpos, hfl1, Bool.false_eq_true, if_false]
          exact hrec
      · simp only [mainLoop, if_pos hpos, hst1]
        exact hc

/-- The cursor invariant holds at the state the drain loop returns, whatever
the oracles did. -/
lemma drainLoop_cursor_any (size bs : Nat)
    (resolver : Nat → Option Nat) (writeOracle : Nat → List Int)
    (encrypted : Bool) :
    ∀ (fuel : Nat) (st : PipeState), CursorInv size bs encrypted st →
      CursorInv size bs encrypted
        (drainLoop bs resolver writeOracle encrypted fuel st).1 := by
  intro fuel
  induction fuel with
  | zero =>
    intro st hc
    by_cases h : st.head ≠ st.tail <;> simp [drainLoop, h] <;> exact hc
  | succ fuel ih =>
    intro st hc
    by_cases hht : st.head ≠ st.tail
    · cases hfl : flushHead bs resolver writeOracle encrypted st with
      | none =>
        simp only [drainLoop, if_pos hht, hfl]
        exact hc
      | some st1 =>
        have hlt : st.head_block < st.admitted := by
          have h1 := hc.hb_le
          rcases Nat.lt_or_ge st.head_block st.admitted with h | h
          · exact h
          · exfalso
            apply hht
            rw [hc.head_eq, hc.tail_eq]
            have heq2 : st.head_block = st.admitted := by omega
            rw [heq2]
        obtain ⟨hc1, _, _, _, _, _⟩ := flushHead_cursor size bs resolver
          writeOracle encrypted st st1 hfl hc hlt
        have hrec := ih st1 hc1
        simp only [drainLoop, if_pos hht, hfl]
        exact hrec
    · simp only [drainLoop, if_neg hht]
      exact hc

/-- C8: throughout every pipeline pass — successful or failing, for files of
any block count and any oracle behaviour — the instrumented count of window
slots holding unflushed block data stays strictly below the window capacity
`WINDOW_SIZE`: the pipeline flushes the oldest pending block before admitting
a new one when the window is full. -/
theorem window_boundedness (statOk openOk wopenOk : Bool) (blk_dev : String)
    (size bs : Nat) (dev0 fileData : Nat → Nat)
    (resolver : Nat → Option Nat) (readOk : Nat → Bool)
    (writeOracle : Nat → List Int) (encrypted : Bool) (hbs : 0 < bs) :
    ∀ x ∈ (produce_block_map statOk openOk wopenOk blk_dev size bs dev0
      fileData resolver readOk writeOracle encrypted).trace,
      x < WINDOW_SIZE := by
  by_cases h1 : statOk = false
  · simp [produce_block_map, h1]
  · by_cases h2 : openOk = false
    · simp [produce_block_map, h1, h2]
    · by_cases h3 : encrypted = true ∧ wopenOk = false
      · simp [produce_block_map, h1, h2, h3]
      · have hcinit := initState_cursorInv size bs encrypted dev0
        have hcml := mainLoop_cursor_any size bs fileData resolver readOk
          writeOracle encrypted hbs (size + 1) (initState dev0) hcinit
        rcases hml : mainLoop size bs fileData resolver readOk writeOracle
          encrypted (size + 1) (initState dev0) with ⟨st', b⟩
        rw [hml] at hcml
        cases b with
        | false =>
          simp only [produce_block_map, if_neg h1, if_neg h2, if_neg h3, hml]
          exact hcml.trace_inv
        | true =>
          have hcdl := drainLoop_cursor_any size bs resolver writeOracle
            encrypted WINDOW_SIZE st' hcml
          rcases hdl : drainLoop bs resolver writeOracle encrypted
            WINDOW_SIZE st' with ⟨st2, b2⟩
          rw [hdl] at hcdl
          cases b2 with
          | false =>
            simp only [produce_block_map, if_neg h1, if_neg h2, if_neg h3,
              hml, hdl]
            exact hcdl.trace_inv
          | true =>
            simp only [produce_block_map, if_neg h1, if_neg h2, if_neg h3,
              hml, hdl]
            exact hcdl.trace_inv

/-- Witness for C8 at a run of 7 one-byte blocks through the five-slot
window: the largest slot count the instrumentation records there, `4`, is
below the capacity. -/
theorem window_boundedness_witness : 4 < WINDOW_SIZE :=
  window_boundedness true true true "d" 7 1 (fun _ => 0) (fun p => p)
    (fun k => some (100 + k)) (fun _ => true) (fun _ => [(1 : Int)]) false
    (by decide) 4 (by decide)

/-! ## Failure policy -/

/-- A successful `flushHead` implies the resolver answered and, when
encrypted, that no underlying write call reported an error. -/
lemma flushHead_some_oracles (bs : Nat) (resolver : Nat → Option Nat)
    (writeOracle : Nat → List Int) (encrypted : Bool) (st st' : PipeState)
    (h : flushHead bs resolver writeOracle encrypted st = some st') :
    resolver st.head_block ≠ none ∧
    (encrypted = true → ErrorsAt (writeOracle st.head_block) bs = false) := by
  obtain ⟨block, hresb, _, _, _, _, _, _, _, _, _, hdevT, _⟩ :=
    flushHead_eq_some bs resolver writeOracle encrypted st st' h
  refine ⟨by rw [hresb]; simp, ?_⟩
  intro henc
  cases hE : ErrorsAt (writeOracle st.head_block) bs with
  | false => rfl
  | true =>
    have hnone := (write_at_offset_spec (st.bufs st.head) st.dev bs
      (bs * block) (writeOracle st.head_block)).2.1 hE
    rw [hdevT henc] at hnone
    exact absurd hnone (by simp)

/-- Success inversion for the main loop: if it completes, every block it
flushed had a resolver answer and an error-free write, and every block it
admitted had a successful read. -/
lemma mainLoop_some_inv (size bs : Nat) (fileData : Nat → Nat)
    (resolver : Nat → Option Nat) (readOk : Nat → Bool)
    (writeOracle : Nat → List Int) (encrypted : Bool) (hbs : 0 < bs) :
    ∀ (fuel : Nat) (st st' : PipeState), CursorInv size bs encrypted st →
      mainLoop size bs fileData resolver readOk writeOracle encrypted fuel st
        = (st', true) →
      CursorInv size bs encrypted st' ∧
      st.head_block ≤ st'.head_block ∧ st.admitted ≤ st'.admitted ∧
      st'.admitted = blockCount size bs ∧
      (∀ k, st.head_block ≤ k → k < st'.head_block →
        resolver k ≠ none ∧
        (encrypted = true → ErrorsAt (writeOracle k) bs = false)) ∧
      (∀ k, st.admitted ≤ k → k < st'.admitted → encrypted = true →
        readOk k = true) := by
  intro fuel
  induction fuel with
  | zero =>
    intro st st' hc h
    by_cases hpos : st.pos < size
    · rw [mainLoop, if_pos hpos] at h
      simp at h
    · rw [mainLoop, if_neg hpos] at h
      simp only [Prod.mk.injEq] at h
      obtain ⟨rfl, _⟩ := h
      exact ⟨hc, le_refl _, le_refl _,
        adm_eq_blockCount_of_exit size bs encrypted st hc hbs hpos,
        fun k h1 h2 => absurd h2 (by omega),
        fun k h1 h2 _ => absurd h2 (by omega)⟩
  | succ fuel ih =>
    intro st st' hc h
    by_cases hpos : st.pos < size
    case neg =>
      simp only [mainLoop, if_neg hpos, Prod.mk.injEq] at h
      obtain ⟨rfl, _⟩ := h
      exact ⟨hc, le_refl _, le_refl _,
        adm_eq_blockCount_of_exit size bs encrypted st hc hbs hpos,
        fun k h1 h2 => absurd h2 (by omega),
        fun k h1 h2 _ => absurd h2 (by omega)⟩
    case pos =>
      by_cases hcond : (st.tail + 1) % WINDOW_SIZE = st.head
      · cases hfl : flushHead bs resolver writeOracle encrypted st with
        | none =>
          simp only [mainLoop, if_pos hpos, if_pos hcond, hfl] at h
          simp at h
        | some st1 =>
          simp only [mainLoop, if_pos hpos, if_pos hcond, hfl] at h
          have hfull := full_window_adm size bs encrypted st hc hcond
          have hlt : st.head_block < st.admitted := by omega
          obtain ⟨hc1, hhb1, hadm1, hpos1, _, _⟩ := flushHead_cursor size bs
            resolver writeOracle encrypted st st1 hfl hc hlt
          have horacles := flushHead_some_oracles bs resolver writeOracle
            encrypted st st1 hfl
          have hpos1' : st1.pos < size := by rw [hpos1]; exact hpos
          have hroom1 : st1.admitted ≤ st1.head_block + 3 := by omega
          by_cases henc : encrypted = true
          · cases hrok : readOk st1.admitted with
            | false =>
              have hrl := readLoop_false_none size bs fileData bs
                (st1.bufs st1.tail) st1.pos hbs hpos1' (by omega)
              rw [if_pos henc] at h
              simp only [hrok, hrl] at h
              simp at h
            | true =>
              have hrl := readLoop_true_eq size bs fileData bs
                (st1.bufs st1.tail) st1.pos hbs hpos1' (by omega)
              rw [if_pos henc] at h
              simp only [hrok, hrl] at h
              rw [henc] at hc1
              have hc2 := admitRead_cursor size bs st1
                (bufWrite (st1.bufs st1.tail) 0 fileData st1.pos
                  (min bs (size - st1.pos))) hc1 hbs hpos1' hroom1
              rw [← henc] at hc2
              obtain ⟨hc', hhb', hadm', hN', hflush', hread'⟩ :=
                ih _ st' hc2 h
              have hhbA : (admitRead st1
                  (bufWrite (st1.bufs st1.tail) 0 fileData st1.pos
                    (min bs (size - st1.pos)))
                  (min (st1.pos + bs) size)).head_block = st1.head_block := rfl
              have hadmA : (admitRead st1
                  (bufWrite (st1.bufs st1.tail) 0 fileData st1.pos
                    (min bs (size - st1.pos)))
                  (min (st1.pos + bs) size)).admitted = st1.admitted + 1 := rfl
              rw [hhbA] at hhb' hflush'
              rw [hadmA] at hadm' hread'
              refine ⟨hc', by omega, by omega, hN', ?_, ?_⟩
              · intro k h1 h2
                rcases Nat.eq_or_lt_of_le h1 with rfl | hk
                · exact horacles
                · exact hflush' k (by omega) h2
              · intro k h1 h2 henc2
                rcases Nat.eq_or_lt_of_le h1 with heq | hk
                · rw [← heq, ← hadm1]
                  exact hrok
                · exact hread' k (by omega) h2 henc2
          · rw [if_neg henc] at h
            have hencF : encrypted = false := by
              cases encrypted
              · rfl
              · exact absurd rfl henc
            rw [hencF] at hc1
            have hc2 := admitSkip_cursor size bs st1 hc1 hbs hpos1' hroom1
            rw [← hencF] at hc2
            obtain ⟨hc', hhb', hadm', hN', hflush', hread'⟩ :=
              ih _ st' hc2 h
            have hhbA : (admitSkip st1 bs).head_block = st1.head_block := rfl
            have hadmA : (admitSkip st1 bs).admitted = st1.admitted + 1 := rfl
            rw [hhbA] at hhb' hflush'
            rw [hadmA] at hadm' hread'
            refine ⟨hc', by omega, by omega, hN', ?_, ?_⟩
            · intro k h1 h2
              rcases Nat.eq_or_lt_of_le h1 with rfl | hk
              · exact horacles
              · exact hflush' k (by omega) h2
            · intro k _ _ henc2
              exact absurd henc2 henc
      · have hroom0 : st.admitted ≤ st.head_block + 3 := by
          have h4 := hc.adm_le
          rw [window_size_eq] at h4
          by_contra hgt
          apply hcond
          rw [hc.tail_eq, hc.head_eq, window_size_eq]
          omega
        simp only [mainLoop, if_pos hpos, if_neg hcond] at h
        by_cases henc : encrypted = true
        · cases hrok : readOk st.admitted with
          | false =>
            have hrl := readLoop_false_none size bs fileData bs
              (st.bufs st.tail) st.pos hbs hpos (by omega)
            rw [if_pos henc] at h
            simp only [hrok, hrl] at h
            simp at h
          | true =>
            have hrl := readLoop_true_eq size bs fileData bs
              (st.bufs st.tail) st.pos hbs hpos (by omega)
            rw [if_pos henc] at h
            simp only [hrok, hrl] at h
            have hcT := hc
            rw [henc] at hcT
            have hc2 := admitRead_cursor size bs st
              (bufWrite (st.bufs st.tail) 0 fileData st.pos
                (min bs (size - st.pos))) hcT hbs hpos hroom0
            rw [← henc] at hc2
            obtain ⟨hc', hhb', hadm', hN', hflush', hread'⟩ :=
              ih _ st' hc2 h
            have hhbA : (admitRead st
                (bufWrite (st.bufs st.tail) 0 fileData st.pos
                  (min bs (size - st.pos)))
                (min (st.pos + bs) size)).head_block = st.head_block := rfl
            have hadmA : (admitRead st
                (bufWrite (st.bufs st.tail) 0 fileData st.pos
                  (min bs (size - st.pos)))
                (min (st.pos + bs) size)).admitted = st.admitted + 1 := rfl
            rw [hhbA] at hhb' hflush'
            rw [hadmA] at hadm' hread'
            refine ⟨hc', hhb', by omega, hN', hflush', ?_⟩
            intro k h1 h2 henc2
            rcases Nat.eq_or_lt_of_le h1 with heq | hk
            · rw [← heq]
              exact hrok
            · exact hread' k (by omega) h2 henc2
        · rw [if_neg henc] at h
          have hencF : encrypted = false := by
            cases encrypted
            · rfl
            · exact absurd rfl henc
          have hcT := hc
          rw [hencF] at hcT
          have hc2 := admitSkip_cursor size bs st hcT hbs hpos hroom0
          rw [← hencF] at hc2
          obtain ⟨hc', hhb', hadm', hN', hflush', hread'⟩ :=
            ih _ st' hc2 h
          have hhbA : (admitSkip st bs).head_block = st.head_block := rfl
          have hadmA : (admitSkip st bs).admitted = st.admitted + 1 := rfl
          rw [hhbA] at hhb' hflush'
          rw [hadmA] at hadm' hread'
          refine ⟨hc', hhb', by omega, hN', hflush', ?_⟩
          intro k _ _ henc2
          exact absurd henc2 henc
/-- Success inversion for the drain loop. -/
lemma drainLoop_some_inv (size bs : Nat)
    (resolver : Nat → Option Nat) (writeOracle : Nat → List Int)
    (encrypted : Bool) :
    ∀ (fuel : Nat) (st st' : PipeState), CursorInv size bs encrypted st →
      drainLoop bs resolver writeOracle encrypted fuel st = (st', true) →
      st.head_block ≤ st'.head_block ∧ st'.admitted = st.admitted ∧
      st'.head_block = st'.admitted ∧
      (∀ k, st.head_block ≤ k → k < st'.head_block →
        resolver k ≠ none ∧
        (encrypted = true → ErrorsAt (writeOracle k) bs = false)) := by
  intro fuel
  induction fuel with
  | zero =>
    intro st st' hc h
    by_cases hht : st.head ≠ st.tail
    · rw [drainLoop, if_pos hht] at h
      simp at h
    · rw [drainLoop, if_neg hht] at h
      simp only [Prod.mk.injEq] at h
      obtain ⟨rfl, _⟩ := h
      have heq : st.head_block = st.admitted := by
        simp only [ne_eq, not_not] at hht
        rw [hc.head_eq, hc.tail_eq] at hht
        have h1 := hc.hb_le
        have h2 := hc.adm_le
        rw [window_size_eq] at hht h2
        omega
      exact ⟨le_refl _, rfl, heq, fun k h1 h2 => absurd h2 (by omega)⟩
  | succ fuel ih =>
    intro st st' hc h
    by_cases hht : st.head ≠ st.tail
    · cases hfl : flushHead bs resolver writeOracle encrypted st with
      | none =>
        simp only [drainLoop, if_pos hht, hfl] at h
        simp at h
      | some st1 =>
        simp only [drainLoop, if_pos hht, hfl] at h
        have hlt : st.head_block < st.admitted := by
          have h1 := hc.hb_le
          rcases Nat.lt_or_ge st.head_block st.admitted with hx | hx
          · exact hx
          · exfalso
            apply hht
            rw [hc.head_eq, hc.tail_eq]
            have heq2 : st.head_block = st.admitted := by omega
            rw [heq2]
        obtain ⟨hc1, hhb1, hadm1, _, _, _⟩ := flushHead_cursor size bs
          resolver writeOracle encrypted st st1 hfl hc hlt
        have horacles := flushHead_some_oracles bs resolver writeOracle
          encrypted st st1 hfl
        obtain ⟨hhb', hadm', hfin', hflush'⟩ := ih st1 st' hc1 h
        refine ⟨by omega, by omega, hfin', ?_⟩
        intro k h1 h2
        rcases Nat.eq_or_lt_of_le h1 with rfl | hk
        · exact horacles
        · exact hflush' k (by omega) h2
    · rw [drainLoop, if_neg hht] at h
      simp only [Prod.mk.injEq] at h
      obtain ⟨rfl, _⟩ := h
      have heq : st.head_block = st.admitted := by
        simp only [ne_eq, not_not] at hht
        rw [hc.head_eq, hc.tail_eq] at hht
        have h1 := hc.hb_le
        have h2 := hc.adm_le
        rw [window_size_eq] at hht h2
        omega
      exact ⟨le_refl _, rfl, heq, fun k h1 h2 => absurd h2 (by omega)⟩

/-- C7 (amended: the failing pass's map output consists of exactly the
already-written device-path/size header — the range count and range lines are
never serialized): whenever some needed block's resolution fails, some source
read fails, or some raw-device write reports an error, the pass returns
failure at the first such failure and serializes no range data. -/
theorem produce_block_map_fail_header_only (blk_dev : String) (size bs : Nat)
    (dev0 fileData : Nat → Nat) (resolver : Nat → Option Nat)
    (readOk : Nat → Bool) (writeOracle : Nat → List Int) (encrypted : Bool)
    (hbs : 0 < bs)
    (hfail : (∃ k, k < blockCount size bs ∧ resolver k = none) ∨
      (encrypted = true ∧ ∃ k, k < blockCount size bs ∧ readOk k = false) ∨
      (encrypted = true ∧ ∃ k, k < blockCount size bs ∧
        ErrorsAt (writeOracle k) bs = true)) :
    (produce_block_map true true true blk_dev size bs dev0 fileData resolver
      readOk writeOracle encrypted).ok = false ∧
    (produce_block_map true true true blk_dev size bs dev0 fileData resolver
      readOk writeOracle encrypted).mapOut =
      blk_dev ++ "\n" ++ toString size ++ " " ++ toString bs ++ "\n" := by
  have hcinit := initState_cursorInv size bs encrypted dev0
  rcases hml : mainLoop size bs fileData resolver readOk writeOracle
    encrypted (size + 1) (initState dev0) with ⟨st', b⟩
  cases b with
  | false =>
    refine ⟨?_, ?_⟩ <;>
      simp only [produce_block_map, if_neg (show ¬ (true = false) by decide),
        if_neg (show ¬ (encrypted = true ∧ true = false) by simp), hml]
  | true =>
    obtain ⟨hc', hhb0, hadm0, hN', hflushM, hreadM⟩ := mainLoop_some_inv
      size bs fileData resolver readOk writeOracle encrypted hbs (size + 1)
      (initState dev0) st' hcinit hml
    rcases hdl : drainLoop bs resolver writeOracle encrypted WINDOW_SIZE st'
      with ⟨st2, b2⟩
    cases b2 with
    | false =>
      refine ⟨?_, ?_⟩ <;>
        simp only [produce_block_map,
          if_neg (show ¬ (true = false) by decide),
          if_neg (show ¬ (encrypted = true ∧ true = false) by simp), hml, hdl]
    | true =>
      exfalso
      obtain ⟨hhb2, hadm2, hfin2, hflushD⟩ := drainLoop_some_inv size bs
        resolver writeOracle encrypted WINDOW_SIZE st' st2 hc' hdl
      have hcover : ∀ k, k < blockCount size bs → resolver k ≠ none ∧
          (encrypted = true → ErrorsAt (writeOracle k) bs = false) := by
        intro k hk
        rcases Nat.lt_or_ge k st'.head_block with h | h
        · exact hflushM k (Nat.zero_le k) h
        · exact hflushD k h (by omega)
      have hreads : ∀ k, k < blockCount size bs → encrypted = true →
          readOk k = true := by
        intro k hk henc
        exact hreadM k (Nat.zero_le k) (by omega) henc
      rcases hfail with ⟨k, hk, hkres⟩ | ⟨henc, k, hk, hkread⟩ |
        ⟨henc, k, hk, hkerr⟩
      · exact (hcover k hk).1 hkres
      · have hx := hreads k hk henc
        rw [hkread] at hx
        exact absurd hx (by decide)
      · have hx := (hcover k hk).2 henc
        rw [hkerr] at hx
        exact absurd hx (by decide)

/-- Witness for C7 (amended): a one-block file whose resolution fails. -/
theorem produce_block_map_fail_header_only_witness :
    (produce_block_map true true true "/dev/blockdev" 4096 4096 (fun _ => 0)
      (fun _ => 0) (fun _ => none) (fun _ => true) (fun _ => [(4096 : Int)])
      false).ok = false ∧
    (produce_block_map true true true "/dev/blockdev" 4096 4096 (fun _ => 0)
      (fun _ => 0) (fun _ => none) (fun _ => true) (fun _ => [(4096 : Int)])
      false).mapOut =
      "/dev/blockdev" ++ "\n" ++ toString 4096 ++ " " ++ toString 4096 ++ "\n" :=
  produce_block_map_fail_header_only "/dev/blockdev" 4096 4096 (fun _ => 0)
    (fun _ => 0) (fun _ => none) (fun _ => true) (fun _ => [(4096 : Int)])
    false (by decide) (Or.inl ⟨0, by decide, rfl⟩)

end Uncrypt
